import Mathlib

/-!
# Verification of the multi-step-input wizard engine (vscode-input)

Shallow embedding of the step-sequencing engine in
`src/handleMultiStepInput.ts` (the current revision, based on a
doubly-traversable linked list of inputs), of the result accumulator
`DialogValues` (`src/DialogValues.ts`, current revision storing boolean
answers in `inputValues`), of `ConfirmationDialog.showDialog`
(`src/type/ConfirmationDialog.ts`), and of
`OpenDialog.findOutDefaultUri` (`src/type/OpenDialog.ts`).

Modelling conventions:
* JavaScript numbers that take part in arithmetic (`stepNumber`,
  `totalNumber`) are modelled as `Int` (they are decremented without a
  lower bound in the source).
* `showDialog` is interactive; a run of the engine is therefore
  parameterised by the list of results the successive `showDialog`
  calls resolve to (`Option Val`: `none` models `undefined`,
  i.e. dismissal).  The engine compares a result with the string
  `InputAction.BACK = "BACK"` to detect back-navigation, exactly as the
  source does (`result === InputAction.BACK`).
* The engine loop `while (iterator.isAccessible())` is modelled with
  explicit fuel; `RunOutcome.outOfFuel` (resp. `outOfResponses`) marks a
  run that was given too little fuel (resp. whose pending `showDialog`
  promise never resolves) and `RunOutcome.crashed` a run on which the
  source would throw (iterator walked off the front of the list).
* Each `showDialog` invocation is recorded in an observation log
  (`Presentation`), together with the engine state visible at that
  moment (accumulator contents and size of the `takenSteps` stack).
-/

namespace VSCInput

/-- The JavaScript value union `string | string[] | boolean` used for
dialog results. -/
inductive Val where
  | str (s : String)
  | strs (l : List String)
  | bool (b : Bool)
deriving DecidableEq, Repr

/-- `InputAction.BACK = "BACK"` from `src/type/AbstractInputBase.ts`: the
sentinel result used to signal that the back button was pressed. -/
def InputAction.BACK : Val := Val.str "BACK"

/-- Model of `vscode.Uri`: only the file-system path is relevant;
`vscode.Uri.file` wraps a path. -/
structure Uri where
  fsPath : String
deriving DecidableEq, Repr

/-- `vscode.Uri.file` -/
def Uri.file (s : String) : Uri := ⟨s⟩

/-- JavaScript `Map.prototype.set` on an association list that keeps
insertion order: an existing key is updated in place, a new key is
appended at the end. -/
def mapSet (m : List (String × List String)) (k : String) (v : List String) :
    List (String × List String) :=
  if m.any (fun p => p.1 == k) then
    m.map (fun p => if p.1 == k then (k, v) else p)
  else
    m ++ [(k, v)]

/-- JavaScript `Map.prototype.get` on the association list. -/
def getVals (m : List (String × List String)) (k : String) : Option (List String) :=
  (m.find? (fun p => p.1 == k)).map Prod.snd

/-- The `elements` computation of `DialogValues.addValue`
(`src/DialogValues.ts`): a string becomes a one-element array, an array
is copied element-wise, a boolean is stored via `toString()`. -/
def normVal : Val → List String
  | .str s => [s]
  | .strs l => l
  | .bool b => [if b then "true" else "false"]

/-- `DialogValues` (`src/DialogValues.ts`, current revision): the result
accumulator.  `uri` is the optional contextual uri; `inputValues` is the
insertion-ordered map from input name to stored `string[]`. -/
structure DialogValues where
  uri : Option Uri := none
  inputValues : List (String × List String) := []
deriving DecidableEq, Repr

/-- `DialogValues.addValue(inputName, result)`. -/
def DialogValues.addValue (dv : DialogValues) (inputName : String) (result : Val) :
    DialogValues :=
  { dv with inputValues := mapSet dv.inputValues inputName (normVal result) }

/-- `dialogValues.inputValues.get(name)`. -/
def DialogValues.get (dv : DialogValues) (k : String) : Option (List String) :=
  getVals dv.inputValues k

/-- The engine-relevant part of an input element (`InputBase` together
with its `InputBaseOptions`): the unique `name` and the two optional
hooks.  `onAfterInput` mutates the accumulator, so it is modelled as a
function on `DialogValues`. -/
structure InputDef where
  name : String
  onBeforeInput : Option (DialogValues → Bool) := none
  onAfterInput : Option (DialogValues → DialogValues) := none

instance : Inhabited InputDef := ⟨⟨"", none, none⟩⟩

/-- `input.inputOptions.onBeforeInput?.(dialogValues) ?? true` -/
def evalPre (inp : InputDef) (dv : DialogValues) : Bool :=
  match inp.onBeforeInput with
  | some f => f dv
  | none => true

/-- `input.inputOptions.onAfterInput?.(dialogValues)` -/
def applyAfter (inp : InputDef) (dv : DialogValues) : DialogValues :=
  match inp.onAfterInput with
  | some f => f dv
  | none => dv

/-- The `Step` record of `src/handleMultiStepInput.ts`: current/recorded
step number, total number of steps, the optional input name (set on
records pushed to `takenSteps`) and the optional going-back flag
(absent, i.e. falsy, unless set). -/
structure Step where
  name : Option String := none
  stepNumber : Int
  totalNumber : Int
  goingBackProcess : Bool := false
deriving DecidableEq, Repr

/-- `generateStepOutput(title, currentStep, maximumStep)`. -/
def generateStepOutput (title : String) (currentStep maximumStep : Int) : String :=
  title ++ " (Step " ++ toString currentStep ++ " of " ++ toString maximumStep ++ ")"

/-- Observation of one `showDialog` invocation: the arguments the input
receives (`title`, `showBackButton`), the presented step's name and the
counters the title was generated from, plus the engine state visible at
that moment (accumulator contents, size of the `takenSteps` stack). -/
structure Presentation where
  name : String
  stepNumber : Int
  totalNumber : Int
  title : String
  showBackButton : Bool
  values : List (String × List String)
  stackSize : Nat
deriving DecidableEq, Repr

/-- The mutable state of `handleMultiStepInput`: the accumulator, the
current `Step`, the `takenSteps` stack (head = most recently pushed),
the iterator position `idx` into the input list, the observation log,
and the pending `showDialog` results. -/
structure EngineState where
  dialogValues : DialogValues
  currentStep : Step
  takenSteps : List Step
  idx : Nat
  presentations : List Presentation
  responses : List (Option Val)
deriving DecidableEq, Repr

/-- The backward walk of `handleGoingBack`: starting from the current
iterator position, step backward (`iterator.pre()`) until the input at
the iterator has the given name.  `none` models the source throwing
after walking off the front of the list (or dereferencing an invalid
iterator). -/
def walkBack (inputs : List InputDef) (nm : String) : Nat → Option Nat
  | 0 =>
    match inputs[0]? with
    | none => none
    | some inp => if inp.name = nm then some 0 else none
  | i + 1 =>
    match inputs[i + 1]? with
    | none => none
    | some inp => if inp.name = nm then some (i + 1) else walkBack inputs nm i

/-- `handleGoingBack(takenSteps, currentStep, iterator)`: pops the most
recent record; if it carries a truthy name, walks the iterator backward
to the step of that name and returns the record with
`goingBackProcess: true`; otherwise returns the current step with the
iterator unmoved.  Result: (step to continue with, remaining stack, new
iterator position or `none` on crash). -/
def handleGoingBack (inputs : List InputDef) (takenSteps : List Step)
    (currentStep : Step) (idx : Nat) : Step × List Step × Option Nat :=
  match takenSteps with
  | [] => (currentStep, [], some idx)
  | goToStep :: rest =>
    match goToStep.name with
    | none => (currentStep, rest, some idx)
    | some nm =>
      if nm = "" then (currentStep, rest, some idx)
      else ({ goToStep with goingBackProcess := true }, rest, walkBack inputs nm idx)

/-- Result of one iteration of the engine loop (`handleInputStep`). -/
inductive IterResult where
  | cont (s : EngineState)
  | cancelled (s : EngineState)
  | crashed (s : EngineState)
  | outOfResponses (s : EngineState)
deriving Repr

/-- The observation recorded for one `showDialog` call of the input
`inp`, presented with counters `sn`/`tn`, accumulator `dv` and a
`takenSteps` stack of size `stackSize`: the source passes the title
`generateStepOutput(title, currentStep.stepNumber, currentStep.totalNumber)`
and the back-button flag `currentStep.stepNumber !== 1`. -/
def presOf (title : String) (inp : InputDef) (sn tn : Int) (dv : DialogValues)
    (stackSize : Nat) : Presentation :=
  { name := inp.name
    stepNumber := sn
    totalNumber := tn
    title := generateStepOutput title sn tn
    showBackButton := decide (sn ≠ 1)
    values := dv.inputValues
    stackSize := stackSize }

/-- One iteration of the engine loop: `handleInputStep(dialogValues,
title, iterator, takenSteps, currentStep)`. -/
def handleInputStep (title : String) (inputs : List InputDef) (s : EngineState) :
    IterResult :=
  match inputs[s.idx]? with
  | none => .crashed s
  | some input =>
    if evalPre input s.dialogValues then
      let pres : Presentation :=
        presOf title input s.currentStep.stepNumber s.currentStep.totalNumber
          s.dialogValues s.takenSteps.length
      let s1 := { s with presentations := s.presentations ++ [pres] }
      match s1.responses with
      | [] => .outOfResponses s1
      | result :: rest =>
        let s2 := { s1 with responses := rest }
        match result with
        | none => .cancelled s2
        | some v =>
          if v = InputAction.BACK then
            match handleGoingBack inputs s2.takenSteps s2.currentStep s2.idx with
            | (cur, taken, some j) =>
              .cont { s2 with currentStep := cur, takenSteps := taken, idx := j }
            | (_, _, none) => .crashed s2
          else
            let cur0 := { s2.currentStep with goingBackProcess := false }
            let dv2 := applyAfter input (s2.dialogValues.addValue input.name v)
            let rcd : Step :=
              { name := some input.name
                stepNumber := cur0.stepNumber
                totalNumber := cur0.totalNumber
                goingBackProcess := false }
            .cont { s2 with
                    dialogValues := dv2
                    currentStep := { cur0 with stepNumber := cur0.stepNumber + 1 }
                    takenSteps := rcd :: s2.takenSteps
                    idx := s2.idx + 1 }
    else
      if s.currentStep.goingBackProcess then
        match handleGoingBack inputs s.takenSteps s.currentStep s.idx with
        | (cur, taken, some j) =>
          .cont { s with currentStep := cur, takenSteps := taken, idx := j }
        | (_, _, none) => .crashed s
      else
        .cont { s with
                currentStep := { s.currentStep with
                                 totalNumber := s.currentStep.totalNumber - 1 }
                idx := s.idx + 1 }

/-- How a run of the engine ended. -/
inductive RunOutcome where
  | completed
  | cancelled
  | crashed
  | outOfResponses
  | outOfFuel
deriving DecidableEq, Repr

/-- A finished run: how it ended together with the final engine state
(observation log included). -/
structure RunResult where
  outcome : RunOutcome
  final : EngineState
deriving Repr

/-- The engine loop `while (iterator.isAccessible()) { ... }` of
`handleMultiStepInput`, with explicit fuel. -/
def run (title : String) (inputs : List InputDef) : Nat → EngineState → RunResult
  | 0, s => ⟨.outOfFuel, s⟩
  | fuel + 1, s =>
    if s.idx < inputs.length then
      match handleInputStep title inputs s with
      | .cont s1 => run title inputs fuel s1
      | .cancelled s1 => ⟨.cancelled, s1⟩
      | .crashed s1 => ⟨.crashed, s1⟩
      | .outOfResponses s1 => ⟨.outOfResponses, s1⟩
    else ⟨.completed, s⟩

/-- The initial engine state of `handleMultiStepInput(title, inputs,
dialogValues)`: step number 1, total number `inputs.length`, empty
`takenSteps`, iterator at the first input. -/
def initState (inputs : List InputDef) (dialogValues : DialogValues)
    (responses : List (Option Val)) : EngineState :=
  { dialogValues := dialogValues
    currentStep := { name := none, stepNumber := 1,
                     totalNumber := (inputs.length : Int), goingBackProcess := false }
    takenSteps := []
    idx := 0
    presentations := []
    responses := responses }

/-- `handleMultiStepInput(title, inputs, dialogValues)`: returns the
accumulator on completion and `undefined` (`none`) when the user
cancelled. -/
def handleMultiStepInput (title : String) (inputs : List InputDef)
    (dialogValues : Option DialogValues) (responses : List (Option Val))
    (fuel : Nat) : Option DialogValues :=
  let r := run title inputs fuel (initState inputs (dialogValues.getD {}) responses)
  match r.outcome with
  | .completed => some r.final.dialogValues
  | _ => none

/-- Model of `vscode.MessageItem` as used by `ConfirmationDialog`. -/
structure MessageItem where
  title : String
deriving DecidableEq, Repr

/-- `ConfirmationDialog.showDialog` (`src/type/ConfirmationDialog.ts`):
`answer` is what `vscode.window.showInformationMessage` resolved to
(the chosen button, or `undefined` on dismissal); the dialog resolves to
`true` only when the chosen button's title is the configured confirm
button name, and to `undefined` otherwise. -/
def ConfirmationDialog.showDialog (confirmButtonName : String)
    (answer : Option MessageItem) : Option Bool :=
  match answer with
  | some a => if a.title = confirmButtonName then some true else none
  | none => none

/-- The `showDialog` result of a confirmation step as seen by the
engine's response stream. -/
def confirmationResponse (confirmButtonName : String) (answer : Option MessageItem) :
    Option Val :=
  (ConfirmationDialog.showDialog confirmButtonName answer).map Val.bool

/-- The common-segment loop of `OpenDialog.findOutDefaultUri`: iterate
`i` over the indices of the first split path; keep the segment while
every split path has that same segment at index `i` (a too-short path
yields `undefined`, which compares unequal), stop at the first
mismatch. -/
def commonSegsFrom (splitPaths : List (List String)) : List String → Nat → List String
  | [], _ => []
  | seg :: restFirst, i =>
    if splitPaths.all (fun p => p[i]? == some seg) then
      seg :: commonSegsFrom splitPaths restFirst (i + 1)
    else []

/-- `OpenDialog.findOutDefaultUri(currentResults, defaultUriFromOptions)`
for the open dialog registered under `name`, parameterised by the node
path helpers it calls (`path.normalize`, `path.sep` and `path.join`,
external to this repository).  Outer `none` models the `TypeError` the
source would throw when a stored value list is empty (`splitPaths[0]`
is `undefined`). -/
def findOutDefaultUri (normalize : String → String) (sep : String)
    (join : List String → String) (name : String) (currentResults : DialogValues)
    (defaultUriFromOptions : Option Uri) : Option (Option Uri) :=
  match getVals currentResults.inputValues name with
  | none => some defaultUriFromOptions
  | some currentValues =>
    match currentValues with
    | [] => none
    | [v] => some (some (Uri.file v))
    | v0 :: v1 :: vrest =>
      let normalizedPaths := (v0 :: v1 :: vrest).map normalize
      let splitPaths := normalizedPaths.map (fun p => p.splitOn sep)
      let commonSegments := commonSegsFrom splitPaths ((normalize v0).splitOn sep) 0
      some (some (Uri.file (join commonSegments)))

/-! ## Derived descriptions of single loop iterations -/

/-- The state after one answered presentation of the input `inp` (the
`else` branch of `handleInputStep`): record the presentation, store the
answer, run `onAfterInput`, push the Step Record, increment the step
number, advance the iterator. -/
def answerStep (title : String) (inp : InputDef) (v : Val) (s : EngineState)
    (rest : List (Option Val)) : EngineState :=
  { s with
    dialogValues := applyAfter inp (s.dialogValues.addValue inp.name v)
    currentStep := { s.currentStep with
                     stepNumber := s.currentStep.stepNumber + 1
                     goingBackProcess := false }
    takenSteps := { name := some inp.name
                    stepNumber := s.currentStep.stepNumber
                    totalNumber := s.currentStep.totalNumber
                    goingBackProcess := false } :: s.takenSteps
    idx := s.idx + 1
    presentations := s.presentations ++
      [presOf title inp s.currentStep.stepNumber s.currentStep.totalNumber
        s.dialogValues s.takenSteps.length]
    responses := rest }

/-- The state after a skipped step on the forward pass (precondition
false, not going back): decrement the total number, advance the
iterator. -/
def skipStep (s : EngineState) : EngineState :=
  { s with
    currentStep := { s.currentStep with
                     totalNumber := s.currentStep.totalNumber - 1 }
    idx := s.idx + 1 }

/-- The state reached by answering, in order, each of the values `vs`
at consecutive presentations starting in state `s`. -/
def advA (title : String) (inputs : List InputDef) : EngineState → List Val → EngineState
  | s, [] => s
  | s, v :: vs =>
    advA title inputs (answerStep title (inputs.getD s.idx default) v s s.responses.tail) vs

/-- What a presentation looks like to the presented input: its name,
the counters, the title string and the back-button flag (the
accumulator snapshot and stack size are dropped). -/
def presObs (p : Presentation) : String × Int × Int × String × Bool :=
  (p.name, p.stepNumber, p.totalNumber, p.title, p.showBackButton)

/-- The expected observations of `n` consecutive answered presentations
starting at input index `j` with counters `sn`/`tn`. -/
def presList (title : String) (inputs : List InputDef) :
    Nat → Int → Int → Nat → List (String × Int × Int × String × Bool)
  | _, _, _, 0 => []
  | j, sn, tn, n + 1 =>
    ((inputs.getD j default).name, sn, tn, generateStepOutput title sn tn,
      decide (sn ≠ 1)) :: presList title inputs (j + 1) (sn + 1) tn n

/-- The (name, answer) pairs recorded by answering the values `vs` at
consecutive inputs starting at index `j`. -/
def pairsOf (inputs : List InputDef) : Nat → List Val → List (String × Val)
  | _, [] => []
  | j, v :: vs => ((inputs.getD j default).name, v) :: pairsOf inputs (j + 1) vs

/-- Record a list of (name, answer) pairs into the accumulator, in
order. -/
def addValues (dv : DialogValues) : List (String × Val) → DialogValues
  | [] => dv
  | (n, v) :: ps => addValues (dv.addValue n v) ps

/-! ## Basic lemmas -/

theorem getElem?_eq_some_getD {α : Type} [Inhabited α] (l : List α) (i : Nat)
    (h : i < l.length) : l[i]? = some (l.getD i default) := by
  rw [List.getD_eq_getElem?_getD, List.getElem?_eq_getElem h]
  rfl

theorem handleInputStep_answer (title : String) {inputs : List InputDef}
    {s : EngineState} {inp : InputDef} {v : Val} {rest : List (Option Val)}
    (h : inputs[s.idx]? = some inp)
    (hpre : evalPre inp s.dialogValues = true)
    (hresp : s.responses = some v :: rest)
    (hv : v ≠ InputAction.BACK) :
    handleInputStep title inputs s = .cont (answerStep title inp v s rest) := by
  unfold handleInputStep
  rw [h]
  simp only [hpre, hresp, if_true]
  rw [if_neg hv]
  rfl

theorem handleInputStep_cancel (title : String) {inputs : List InputDef}
    {s : EngineState} {inp : InputDef} {rest : List (Option Val)}
    (h : inputs[s.idx]? = some inp)
    (hpre : evalPre inp s.dialogValues = true)
    (hresp : s.responses = none :: rest) :
    handleInputStep title inputs s = .cancelled
      { s with
        presentations := s.presentations ++
          [presOf title inp s.currentStep.stepNumber s.currentStep.totalNumber
            s.dialogValues s.takenSteps.length]
        responses := rest } := by
  unfold handleInputStep
  rw [h]
  simp only [hpre, hresp, if_true]

theorem handleInputStep_noResponse (title : String) {inputs : List InputDef}
    {s : EngineState} {inp : InputDef}
    (h : inputs[s.idx]? = some inp)
    (hpre : evalPre inp s.dialogValues = true)
    (hresp : s.responses = []) :
    handleInputStep title inputs s = .outOfResponses
      { s with
        presentations := s.presentations ++
          [presOf title inp s.currentStep.stepNumber s.currentStep.totalNumber
            s.dialogValues s.takenSteps.length] } := by
  unfold handleInputStep
  rw [h]
  simp only [hpre, hresp, if_true]

theorem handleInputStep_back (title : String) {inputs : List InputDef}
    {s : EngineState} {inp : InputDef} {rest : List (Option Val)}
    {cur : Step} {taken : List Step} {j : Nat}
    (h : inputs[s.idx]? = some inp)
    (hpre : evalPre inp s.dialogValues = true)
    (hresp : s.responses = some InputAction.BACK :: rest)
    (hgb : handleGoingBack inputs s.takenSteps s.currentStep s.idx =
      (cur, taken, some j)) :
    handleInputStep title inputs s = .cont
      { s with
        currentStep := cur
        takenSteps := taken
        idx := j
        presentations := s.presentations ++
          [presOf title inp s.currentStep.stepNumber s.currentStep.totalNumber
            s.dialogValues s.takenSteps.length]
        responses := rest } := by
  unfold handleInputStep
  rw [h]
  simp only [hpre, hresp, if_true, if_pos rfl]
  rw [show ({ s with
      presentations := s.presentations ++
        [presOf title inp s.currentStep.stepNumber s.currentStep.totalNumber
          s.dialogValues s.takenSteps.length]
      responses := rest } : EngineState).takenSteps = s.takenSteps from rfl]
  rw [show ({ s with
      presentations := s.presentations ++
        [presOf title inp s.currentStep.stepNumber s.currentStep.totalNumber
          s.dialogValues s.takenSteps.length]
      responses := rest } : EngineState).currentStep = s.currentStep from rfl]
  rw [show ({ s with
      presentations := s.presentations ++
        [presOf title inp s.currentStep.stepNumber s.currentStep.totalNumber
          s.dialogValues s.takenSteps.length]
      responses := rest } : EngineState).idx = s.idx from rfl]
  rw [hgb]

theorem handleInputStep_skip (title : String) {inputs : List InputDef}
    {s : EngineState} {inp : InputDef}
    (h : inputs[s.idx]? = some inp)
    (hpre : evalPre inp s.dialogValues = false)
    (hgbp : s.currentStep.goingBackProcess = false) :
    handleInputStep title inputs s = .cont (skipStep s) := by
  unfold handleInputStep
  rw [h]
  simp only [hpre, hgbp, if_false, Bool.false_eq_true]
  simp only [skipStep, hgbp]

theorem handleInputStep_skipBack (title : String) {inputs : List InputDef}
    {s : EngineState} {inp : InputDef}
    {cur : Step} {taken : List Step} {j : Nat}
    (h : inputs[s.idx]? = some inp)
    (hpre : evalPre inp s.dialogValues = false)
    (hgbp : s.currentStep.goingBackProcess = true)
    (hgb : handleGoingBack inputs s.takenSteps s.currentStep s.idx =
      (cur, taken, some j)) :
    handleInputStep title inputs s = .cont
      { s with currentStep := cur, takenSteps := taken, idx := j } := by
  unfold handleInputStep
  rw [h]
  simp only [hpre, hgbp, if_false, if_true, Bool.false_eq_true]
  rw [hgb]

/-! ## Unfolding lemmas for `run` -/

theorem run_zero {title : String} {inputs : List InputDef} {s : EngineState} :
    run title inputs 0 s = ⟨.outOfFuel, s⟩ := rfl

theorem run_succ {title : String} {inputs : List InputDef} {s : EngineState}
    {f : Nat} :
    run title inputs (f + 1) s =
      if s.idx < inputs.length then
        match handleInputStep title inputs s with
        | .cont s1 => run title inputs f s1
        | .cancelled s1 => ⟨.cancelled, s1⟩
        | .crashed s1 => ⟨.crashed, s1⟩
        | .outOfResponses s1 => ⟨.outOfResponses, s1⟩
      else ⟨.completed, s⟩ := rfl

theorem run_done {title : String} {inputs : List InputDef} {s : EngineState}
    {f : Nat} (h : inputs.length ≤ s.idx) :
    run title inputs (f + 1) s = ⟨.completed, s⟩ := by
  rw [run_succ, if_neg (Nat.not_lt.mpr h)]

theorem run_cont {title : String} {inputs : List InputDef} {s s1 : EngineState}
    {f : Nat} (hidx : s.idx < inputs.length)
    (h : handleInputStep title inputs s = .cont s1) :
    run title inputs (f + 1) s = run title inputs f s1 := by
  rw [run_succ, if_pos hidx, h]

theorem run_cancelled {title : String} {inputs : List InputDef} {s s1 : EngineState}
    {f : Nat} (hidx : s.idx < inputs.length)
    (h : handleInputStep title inputs s = .cancelled s1) :
    run title inputs (f + 1) s = ⟨.cancelled, s1⟩ := by
  rw [run_succ, if_pos hidx, h]

theorem run_outOfResponses {title : String} {inputs : List InputDef}
    {s s1 : EngineState} {f : Nat} (hidx : s.idx < inputs.length)
    (h : handleInputStep title inputs s = .outOfResponses s1) :
    run title inputs (f + 1) s = ⟨.outOfResponses, s1⟩ := by
  rw [run_succ, if_pos hidx, h]

/-! ## The forward pass through a block of answered steps -/

theorem run_advA (title : String) (inputs : List InputDef) :
    ∀ (vs : List Val) (f : Nat) (s : EngineState) (rest : List (Option Val)),
    s.currentStep.goingBackProcess = false →
    s.responses = vs.map some ++ rest →
    (∀ v ∈ vs, v ≠ InputAction.BACK) →
    (∀ m, m < vs.length → s.idx + m < inputs.length ∧
      ∀ dv, evalPre (inputs.getD (s.idx + m) default) dv = true) →
    run title inputs (vs.length + f) s = run title inputs f (advA title inputs s vs)
  | [], f, s, rest, _, _, _, _ => by
    simp [advA]
  | v :: vs, f, s, rest, hgbp, hresp, hback, hrange => by
    have h0 := hrange 0 (Nat.succ_pos _)
    have hidx : s.idx < inputs.length := by simpa using h0.1
    have hget : inputs[s.idx]? = some (inputs.getD s.idx default) :=
      getElem?_eq_some_getD inputs s.idx hidx
    have hpre : evalPre (inputs.getD s.idx default) s.dialogValues = true := h0.2 _
    have hresp1 : s.responses = some v :: (vs.map some ++ rest) := by
      simpa using hresp
    have hv : v ≠ InputAction.BACK := hback v (List.mem_cons_self _ _)
    have hstep := handleInputStep_answer title hget hpre hresp1 hv
    have harith : (v :: vs).length + f = (vs.length + f) + 1 := by
      simp [List.length_cons]
      omega
    rw [harith, run_cont hidx hstep]
    have hA : advA title inputs s (v :: vs) =
        advA title inputs
          (answerStep title (inputs.getD s.idx default) v s (vs.map some ++ rest)) vs := by
      rw [advA]
      rw [show s.responses.tail = vs.map some ++ rest from by simp [hresp1]]
    rw [hA]
    apply run_advA title inputs vs f _ rest
    · rfl
    · rfl
    · exact fun w hw => hback w (List.mem_cons_of_mem _ hw)
    · intro m hm
      have := hrange (m + 1) (by simpa using Nat.succ_lt_succ hm)
      constructor
      · have h1 := this.1
        simpa [answerStep, Nat.add_assoc, Nat.add_comm 1 m] using h1
      · intro dv
        have h2 := this.2 dv
        have : s.idx + (m + 1) =
            (answerStep title (inputs.getD s.idx default) v s (vs.map some ++ rest)).idx + m := by
          simp [answerStep]
          omega
        rwa [this] at h2

/-! ## Field characterisations of `advA` -/

theorem advA_idx (title : String) (inputs : List InputDef) :
    ∀ (vs : List Val) (s : EngineState),
    (advA title inputs s vs).idx = s.idx + vs.length
  | [], s => by simp [advA]
  | v :: vs, s => by
    rw [advA, advA_idx title inputs vs]
    simp [answerStep]
    omega

theorem advA_stepNumber (title : String) (inputs : List InputDef) :
    ∀ (vs : List Val) (s : EngineState),
    (advA title inputs s vs).currentStep.stepNumber =
      s.currentStep.stepNumber + vs.length
  | [], s => by simp [advA]
  | v :: vs, s => by
    rw [advA, advA_stepNumber title inputs vs]
    simp [answerStep]
    ring

theorem advA_totalNumber (title : String) (inputs : List InputDef) :
    ∀ (vs : List Val) (s : EngineState),
    (advA title inputs s vs).currentStep.totalNumber = s.currentStep.totalNumber
  | [], s => by simp [advA]
  | v :: vs, s => by
    rw [advA, advA_totalNumber title inputs vs]
    simp [answerStep]

theorem advA_goingBackProcess (title : String) (inputs : List InputDef) :
    ∀ (vs : List Val) (s : EngineState),
    s.currentStep.goingBackProcess = false →
    (advA title inputs s vs).currentStep.goingBackProcess = false
  | [], s, h => by simpa [advA] using h
  | v :: vs, s, h => by
    rw [advA]
    exact advA_goingBackProcess title inputs vs _ (by simp [answerStep])

theorem advA_responses (title : String) (inputs : List InputDef) :
    ∀ (vs : List Val) (s : EngineState) (rest : List (Option Val)),
    s.responses = vs.map some ++ rest →
    (advA title inputs s vs).responses = rest
  | [], s, rest, h => by simpa [advA] using h
  | v :: vs, s, rest, h => by
    rw [advA]
    exact advA_responses title inputs vs _ rest (by simp [answerStep]; rw [h]; simp)

theorem advA_presentations (title : String) (inputs : List InputDef) :
    ∀ (vs : List Val) (s : EngineState),
    ((advA title inputs s vs).presentations).map presObs =
      s.presentations.map presObs ++
        presList title inputs s.idx s.currentStep.stepNumber
          s.currentStep.totalNumber vs.length
  | [], s => by simp [advA, presList]
  | v :: vs, s => by
    rw [advA, advA_presentations title inputs vs]
    simp only [answerStep, List.length_cons, presList]
    simp [presOf, presObs, presList]

theorem advA_dialogValues (title : String) (inputs : List InputDef) :
    ∀ (vs : List Val) (s : EngineState),
    (∀ m, m < vs.length → (inputs.getD (s.idx + m) default).onAfterInput = none) →
    (advA title inputs s vs).dialogValues =
      addValues s.dialogValues (pairsOf inputs s.idx vs)
  | [], s, _ => by simp [advA, addValues, pairsOf]
  | v :: vs, s, haft => by
    rw [advA, pairsOf]
    rw [advA_dialogValues title inputs vs _ ?_]
    · rw [addValues]
      have h0 : (inputs.getD (s.idx + 0) default).onAfterInput = none :=
        haft 0 (Nat.succ_pos _)
      simp only [Nat.add_zero] at h0
      simp only [answerStep, applyAfter, h0]
    · intro m hm
      have := haft (m + 1) (by simpa using Nat.succ_lt_succ hm)
      simpa [answerStep, Nat.add_assoc, Nat.add_comm 1 m] using this

theorem advA_takenSteps_top (title : String) (inputs : List InputDef) :
    ∀ (vs : List Val) (s : EngineState), vs ≠ [] →
    ∃ tl, (advA title inputs s vs).takenSteps =
      { name := some (inputs.getD (s.idx + vs.length - 1) default).name
        stepNumber := s.currentStep.stepNumber + vs.length - 1
        totalNumber := s.currentStep.totalNumber
        goingBackProcess := false } :: tl
  | [], _, h => absurd rfl h
  | [v], s, _ => by
    rw [advA, advA]
    refine ⟨s.takenSteps, ?_⟩
    simp [answerStep]
  | v :: w :: vs, s, _ => by
    rw [advA]
    obtain ⟨tl, htl⟩ :=
      advA_takenSteps_top title inputs (w :: vs)
        (answerStep title (inputs.getD s.idx default) v s s.responses.tail)
        (by simp)
    refine ⟨tl, ?_⟩
    rw [htl]
    have h1 : (answerStep title (inputs.getD s.idx default) v s s.responses.tail).idx +
        (w :: vs).length - 1 = s.idx + (v :: w :: vs).length - 1 := by
      simp [answerStep]
      omega
    have h2 : (answerStep title (inputs.getD s.idx default) v s
        s.responses.tail).currentStep.stepNumber + ((w :: vs).length : Int) - 1 =
        s.currentStep.stepNumber + ((v :: w :: vs).length : Int) - 1 := by
      simp [answerStep]
      ring
    have h3 : (answerStep title (inputs.getD s.idx default) v s
        s.responses.tail).currentStep.totalNumber = s.currentStep.totalNumber := by
      simp [answerStep]
    rw [h1, h2, h3]

/-! ## Indexing into the expected observation list -/

theorem presList_length (title : String) (inputs : List InputDef) :
    ∀ (n : Nat) (j : Nat) (sn tn : Int),
    (presList title inputs j sn tn n).length = n
  | 0, _, _, _ => rfl
  | n + 1, j, sn, tn => by
    rw [presList, List.length_cons, presList_length title inputs n]

theorem presList_getElem? (title : String) (inputs : List InputDef) :
    ∀ (n : Nat) (k : Nat) (j : Nat) (sn tn : Int), k < n →
    (presList title inputs j sn tn n)[k]? =
      some ((inputs.getD (j + k) default).name, sn + (k : Int), tn,
        generateStepOutput title (sn + (k : Int)) tn, decide (sn + (k : Int) ≠ 1))
  | n + 1, 0, j, sn, tn, _ => by
    simp [presList]
  | n + 1, k + 1, j, sn, tn, hk => by
    rw [presList]
    have := presList_getElem? title inputs n k (j + 1) (sn + 1) tn (Nat.lt_of_succ_lt_succ hk)
    rw [List.getElem?_cons_succ, this]
    have e1 : j + 1 + k = j + (k + 1) := by omega
    have e2 : sn + 1 + (k : Int) = sn + ((k : Int) + 1) := by ring
    rw [e1, e2]
    push_cast
    ring_nf

/-! ## Lookup lemmas for the accumulator -/

theorem find?_set_hit (k : String) (v : List String) :
    ∀ (m : List (String × List String)), m.any (fun p => p.1 == k) = true →
    (m.map fun p => if p.1 == k then (k, v) else p).find? (fun p => p.1 == k) =
      some (k, v)
  | [], h => by simp at h
  | p :: t, h => by
    by_cases hp : (p.1 == k) = true
    · rw [List.map_cons, if_pos hp]
      exact List.find?_cons_of_pos _ (by simp)
    · rw [List.map_cons, if_neg hp]
      rw [List.find?_cons_of_neg _ (by simpa using hp)]
      refine find?_set_hit k v t ?_
      simp only [List.any_cons] at h
      rcases Bool.or_eq_true_iff.mp h with h1 | h1
      · exact absurd h1 hp
      · exact h1

theorem find?_set_miss (k : String) (v : List String) (k' : String) (hne : k' ≠ k) :
    ∀ (m : List (String × List String)),
    (m.map fun p => if p.1 == k then (k, v) else p).find? (fun p => p.1 == k') =
      m.find? (fun p => p.1 == k')
  | [] => rfl
  | p :: t => by
    by_cases hp : (p.1 == k) = true
    · have hpk : p.1 = k := by simpa using hp
      have hkv : ¬((fun q : String × List String => q.1 == k') (k, v)) = true := by
        simpa using fun hc => hne hc.symm
      have hpq : ¬((fun q : String × List String => q.1 == k') p) = true := by
        simp only [hpk]
        simpa using fun hc => hne hc.symm
      rw [List.map_cons, if_pos hp]
      rw [@List.find?_cons_of_neg _ (fun q => q.1 == k') (k, v) _ hkv]
      rw [@List.find?_cons_of_neg _ (fun q => q.1 == k') p _ hpq]
      exact find?_set_miss k v k' hne t
    · rw [List.map_cons, if_neg hp]
      by_cases hq : (p.1 == k') = true
      · rw [@List.find?_cons_of_pos _ (fun q => q.1 == k') p _ hq,
          @List.find?_cons_of_pos _ (fun q => q.1 == k') p _ hq]
      · rw [@List.find?_cons_of_neg _ (fun q => q.1 == k') p _ hq,
          @List.find?_cons_of_neg _ (fun q => q.1 == k') p _ hq]
        exact find?_set_miss k v k' hne t

theorem getVals_mapSet_self (m : List (String × List String)) (k : String)
    (v : List String) : getVals (mapSet m k v) k = some v := by
  unfold mapSet getVals
  by_cases h : m.any (fun p => p.1 == k) = true
  · rw [if_pos h, find?_set_hit k v m h]
    rfl
  · rw [if_neg h, List.find?_append]
    have h1 : m.find? (fun p => p.1 == k) = none := by
      rw [List.find?_eq_none]
      intro x hx
      intro hc
      exact h (List.any_eq_true.mpr ⟨x, hx, hc⟩)
    rw [h1]
    simp

theorem getVals_mapSet_other (m : List (String × List String)) (k k' : String)
    (v : List String) (hne : k' ≠ k) : getVals (mapSet m k v) k' = getVals m k' := by
  unfold mapSet getVals
  by_cases h : m.any (fun p => p.1 == k) = true
  · rw [if_pos h, find?_set_miss k v k' hne m]
  · rw [if_neg h, List.find?_append]
    have h2 : ([(k, v)].find? fun p => p.1 == k') = none := by
      rw [List.find?_eq_none]
      intro x hx hc
      simp at hx
      rw [hx] at hc
      have : k = k' := by simpa using hc
      exact hne this.symm
    rw [h2]
    cases m.find? (fun p => p.1 == k') <;> rfl

theorem addValues_append (dv : DialogValues) :
    ∀ (ps qs : List (String × Val)),
    addValues dv (ps ++ qs) = addValues (addValues dv ps) qs
  | [], qs => rfl
  | (n, v) :: ps, qs => by
    rw [List.cons_append, addValues, addValues]
    exact addValues_append _ ps qs

theorem get_addValues_last (dv : DialogValues) (ps : List (String × Val))
    (nm : String) (v : Val) :
    (addValues dv (ps ++ [(nm, v)])).get nm = some (normVal v) := by
  rw [addValues_append, addValues, addValues]
  unfold DialogValues.get DialogValues.addValue
  exact getVals_mapSet_self _ _ _

theorem get_addValues_notMem (nm : String) :
    ∀ (ps : List (String × Val)) (dv : DialogValues),
    (∀ q ∈ ps, q.1 ≠ nm) →
    (addValues dv ps).get nm = dv.get nm
  | [], dv, _ => rfl
  | (n, v) :: ps, dv, h => by
    rw [addValues]
    rw [get_addValues_notMem nm ps _ (fun q hq => h q (List.mem_cons_of_mem _ hq))]
    unfold DialogValues.get DialogValues.addValue
    exact getVals_mapSet_other _ _ _ _ (fun hc => h (n, v) (List.mem_cons_self _ _) hc.symm)

theorem pairsOf_append (inputs : List InputDef) :
    ∀ (vs ws : List Val) (j : Nat),
    pairsOf inputs j (vs ++ ws) = pairsOf inputs j vs ++ pairsOf inputs (j + vs.length) ws
  | [], ws, j => by simp [pairsOf]
  | v :: vs, ws, j => by
    rw [List.cons_append, pairsOf, pairsOf, pairsOf_append inputs vs ws (j + 1)]
    simp only [List.cons_append, List.length_cons]
    rw [show j + 1 + vs.length = j + (vs.length + 1) from by omega]

theorem getD_mem {α : Type} [Inhabited α] (l : List α) (i : Nat) (h : i < l.length) :
    l.getD i default ∈ l := by
  rw [List.getD_eq_getElem?_getD, List.getElem?_eq_getElem h]
  exact List.getElem_mem h

theorem pairsOf_fst (inputs : List InputDef) :
    ∀ (vs : List Val) (j : Nat) (q : String × Val), q ∈ pairsOf inputs j vs →
    ∃ m, m < vs.length ∧ q.1 = (inputs.getD (j + m) default).name
  | [], _, _, hq => by simp [pairsOf] at hq
  | v :: vs, j, q, hq => by
    rw [pairsOf] at hq
    rcases List.mem_cons.mp hq with h | h
    · exact ⟨0, Nat.succ_pos _, by simp [h]⟩
    · obtain ⟨m, hm, he⟩ := pairsOf_fst inputs vs (j + 1) q h
      exact ⟨m + 1, by simpa using Nat.succ_lt_succ hm,
        by rw [he, show j + 1 + m = j + (m + 1) from by omega]⟩

/-! ## Claim C1: forward pass over all-true preconditions -/

/-- C1: for every step list in which every step's precondition is true
(or absent) and every presentation resolves to an answer, the engine
presents the steps in list order, and the k-th presented step (0-based
`k` here, so step `k + 1` of the claim) receives the title
`"<title> (Step k+1 of N)"` and `showBackButton = true` exactly when
`k + 1 ≠ 1`. -/
theorem C1_forward_presentation (title : String) (inputs : List InputDef)
    (vs : List Val) (dv0 : DialogValues)
    (hpre : ∀ inp ∈ inputs, ∀ dv, evalPre inp dv = true)
    (hlen : vs.length = inputs.length)
    (hback : ∀ v ∈ vs, v ≠ InputAction.BACK) :
    (run title inputs (inputs.length + 1)
       (initState inputs dv0 (vs.map some))).outcome = RunOutcome.completed ∧
    (run title inputs (inputs.length + 1)
       (initState inputs dv0 (vs.map some))).final.presentations.length =
      inputs.length ∧
    ∀ k, k < inputs.length →
      ((run title inputs (inputs.length + 1)
         (initState inputs dv0 (vs.map some))).final.presentations.map presObs)[k]? =
        some ((inputs.getD k default).name, (k : Int) + 1, (inputs.length : Int),
          generateStepOutput title ((k : Int) + 1) (inputs.length : Int),
          decide ((k : Int) + 1 ≠ 1)) := by
  have hrange : ∀ m, m < vs.length →
      (initState inputs dv0 (vs.map some)).idx + m < inputs.length ∧
      ∀ dv, evalPre (inputs.getD ((initState inputs dv0 (vs.map some)).idx + m)
        default) dv = true := by
    intro m hm
    have hmN : m < inputs.length := hlen ▸ hm
    refine ⟨by simpa [initState] using hmN, fun dv => ?_⟩
    have : inputs.getD ((initState inputs dv0 (vs.map some)).idx + m) default ∈ inputs := by
      simpa [initState] using getD_mem inputs m hmN
    exact hpre _ this dv
  have hrun := run_advA title inputs vs 1 (initState inputs dv0 (vs.map some)) []
    (by simp [initState]) (by simp [initState]) hback hrange
  have hidxN : (advA title inputs (initState inputs dv0 (vs.map some)) vs).idx =
      inputs.length := by
    rw [advA_idx]
    simp [initState, hlen]
  have hdone : run title inputs 1
      (advA title inputs (initState inputs dv0 (vs.map some)) vs) =
      ⟨RunOutcome.completed, advA title inputs (initState inputs dv0 (vs.map some)) vs⟩ :=
    run_done (le_of_eq hidxN.symm)
  have hfull : run title inputs (inputs.length + 1) (initState inputs dv0 (vs.map some)) =
      ⟨RunOutcome.completed, advA title inputs (initState inputs dv0 (vs.map some)) vs⟩ := by
    rw [← hlen, hrun, hdone]
  have htr := advA_presentations title inputs vs (initState inputs dv0 (vs.map some))
  have htr' : ((advA title inputs (initState inputs dv0 (vs.map some)) vs).presentations).map
      presObs = presList title inputs 0 1 (inputs.length : Int) vs.length := by
    rw [htr]
    simp [initState]
  refine ⟨by rw [hfull], ?_, ?_⟩
  · rw [hfull]
    have := congrArg List.length htr'
    simpa [presList_length, hlen] using this
  · intro k hk
    rw [hfull]
    have hkv : k < vs.length := hlen ▸ hk
    rw [htr', presList_getElem? title inputs vs.length k 0 1 (inputs.length : Int) hkv]
    rw [show (0 : Nat) + k = k from by omega,
      show (1 : Int) + (k : Int) = (k : Int) + 1 from by ring]

/-- Witness for C1 at a concrete two-step wizard. -/
theorem C1_forward_presentation_witness :
    (∀ inp ∈ ([{ name := "a" }, { name := "b" }] : List InputDef),
      ∀ dv, evalPre inp dv = true) ∧
    ((run "T" [{ name := "a" }, { name := "b" }]
       (([{ name := "a" }, { name := "b" }] : List InputDef).length + 1)
       (initState [{ name := "a" }, { name := "b" }] {}
         ([Val.str "x", Val.str "y"].map some))).outcome = RunOutcome.completed ∧
    (run "T" [{ name := "a" }, { name := "b" }]
       (([{ name := "a" }, { name := "b" }] : List InputDef).length + 1)
       (initState [{ name := "a" }, { name := "b" }] {}
         ([Val.str "x", Val.str "y"].map some))).final.presentations.length =
      ([{ name := "a" }, { name := "b" }] : List InputDef).length ∧
    ∀ k, k < ([{ name := "a" }, { name := "b" }] : List InputDef).length →
      ((run "T" [{ name := "a" }, { name := "b" }]
         (([{ name := "a" }, { name := "b" }] : List InputDef).length + 1)
         (initState [{ name := "a" }, { name := "b" }] {}
           ([Val.str "x", Val.str "y"].map some))).final.presentations.map presObs)[k]? =
        some ((([{ name := "a" }, { name := "b" }] : List InputDef).getD k default).name,
          (k : Int) + 1, (([{ name := "a" }, { name := "b" }] : List InputDef).length : Int),
          generateStepOutput "T" ((k : Int) + 1)
            (([{ name := "a" }, { name := "b" }] : List InputDef).length : Int),
          decide ((k : Int) + 1 ≠ 1))) := by
  have hpre : ∀ inp ∈ ([{ name := "a" }, { name := "b" }] : List InputDef),
      ∀ dv, evalPre inp dv = true := by
    intro inp hinp dv
    simp only [List.mem_cons, List.mem_singleton] at hinp
    rcases hinp with h | h | h
    · rw [h]; rfl
    · rw [h]; rfl
    · simp at h
  exact ⟨hpre, C1_forward_presentation "T" [{ name := "a" }, { name := "b" }]
    [Val.str "x", Val.str "y"] {} hpre rfl (by decide)⟩

/-! ## Claim C7: cancellation keeps exactly the completed answers -/

/-- C7: if, after `k` answered steps (all preconditions true), the next
presentation resolves to `undefined`, the engine returns nothing and at
that moment the accumulator holds exactly the initial values plus the
answers of the `k` completed steps: the cancelled step's `addValue` and
`onAfterInput` are never reached. -/
theorem C7_cancellation (title : String) (inputs : List InputDef)
    (vs : List Val) (dv0 : DialogValues)
    (hpre : ∀ inp ∈ inputs, ∀ dv, evalPre inp dv = true)
    (haft : ∀ inp ∈ inputs, inp.onAfterInput = none)
    (hlen : vs.length < inputs.length)
    (hback : ∀ v ∈ vs, v ≠ InputAction.BACK) :
    (run title inputs (vs.length + 1)
       (initState inputs dv0 (vs.map some ++ [none]))).outcome = RunOutcome.cancelled ∧
    (run title inputs (vs.length + 1)
       (initState inputs dv0 (vs.map some ++ [none]))).final.dialogValues =
      addValues dv0 (pairsOf inputs 0 vs) ∧
    handleMultiStepInput title inputs (some dv0) (vs.map some ++ [none])
      (vs.length + 1) = none := by
  have hrange : ∀ m, m < vs.length →
      (initState inputs dv0 (vs.map some ++ [none])).idx + m < inputs.length ∧
      ∀ dv, evalPre (inputs.getD
        ((initState inputs dv0 (vs.map some ++ [none])).idx + m) default) dv = true := by
    intro m hm
    have hmN : m < inputs.length := lt_trans hm hlen
    refine ⟨by simpa [initState] using hmN, fun dv => ?_⟩
    have : inputs.getD ((initState inputs dv0 (vs.map some ++ [none])).idx + m)
        default ∈ inputs := by
      simpa [initState] using getD_mem inputs m hmN
    exact hpre _ this dv
  have hrun := run_advA title inputs vs 1 (initState inputs dv0 (vs.map some ++ [none]))
    [none] (by simp [initState]) (by simp [initState]) hback hrange
  set sA := advA title inputs (initState inputs dv0 (vs.map some ++ [none])) vs with hsA
  have hidxA : sA.idx = vs.length := by
    rw [hsA, advA_idx]
    simp [initState]
  have hidxlt : sA.idx < inputs.length := by rw [hidxA]; exact hlen
  have hget : inputs[sA.idx]? = some (inputs.getD sA.idx default) :=
    getElem?_eq_some_getD inputs sA.idx hidxlt
  have hpreA : evalPre (inputs.getD sA.idx default) sA.dialogValues = true :=
    hpre _ (getD_mem inputs sA.idx hidxlt) _
  have hrespA : sA.responses = none :: [] := by
    rw [hsA]
    exact advA_responses title inputs vs _ [none] (by simp [initState])
  have hstep := handleInputStep_cancel title hget hpreA hrespA
  have hcanc : run title inputs 1 sA = ⟨RunOutcome.cancelled,
      { sA with
        presentations := sA.presentations ++
          [presOf title (inputs.getD sA.idx default) sA.currentStep.stepNumber
            sA.currentStep.totalNumber sA.dialogValues sA.takenSteps.length]
        responses := [] }⟩ :=
    run_cancelled hidxlt hstep
  have hdv : sA.dialogValues = addValues dv0 (pairsOf inputs 0 vs) := by
    rw [hsA]
    rw [advA_dialogValues title inputs vs _ ?_]
    · simp [initState]
    · intro m hm
      have hmN : m < inputs.length := lt_trans hm hlen
      refine haft _ ?_
      simpa [initState] using getD_mem inputs m hmN
  refine ⟨?_, ?_, ?_⟩
  · rw [hrun, hcanc]
  · rw [hrun, hcanc]
    exact hdv
  · unfold handleMultiStepInput
    rw [show (some dv0).getD {} = dv0 from rfl]
    rw [hrun, hcanc]

/-- Witness for C7: a three-step wizard cancelled at the second step. -/
theorem C7_cancellation_witness :
    ((∀ inp ∈ ([{ name := "a" }, { name := "b" }, { name := "c" }] : List InputDef),
        ∀ dv, evalPre inp dv = true) ∧
     (∀ inp ∈ ([{ name := "a" }, { name := "b" }, { name := "c" }] : List InputDef),
        inp.onAfterInput = none)) ∧
    ((run "T" [{ name := "a" }, { name := "b" }, { name := "c" }]
       (([Val.str "x"] : List Val).length + 1)
       (initState [{ name := "a" }, { name := "b" }, { name := "c" }] {}
         (([Val.str "x"] : List Val).map some ++ [none]))).outcome =
       RunOutcome.cancelled ∧
    (run "T" [{ name := "a" }, { name := "b" }, { name := "c" }]
       (([Val.str "x"] : List Val).length + 1)
       (initState [{ name := "a" }, { name := "b" }, { name := "c" }] {}
         (([Val.str "x"] : List Val).map some ++ [none]))).final.dialogValues =
      addValues {} (pairsOf [{ name := "a" }, { name := "b" }, { name := "c" }] 0
        [Val.str "x"]) ∧
    handleMultiStepInput "T" [{ name := "a" }, { name := "b" }, { name := "c" }]
      (some {}) (([Val.str "x"] : List Val).map some ++ [none])
      (([Val.str "x"] : List Val).length + 1) = none) := by
  have hpre : ∀ inp ∈ ([{ name := "a" }, { name := "b" }, { name := "c" }] : List InputDef),
      ∀ dv, evalPre inp dv = true := by
    intro inp hinp dv
    simp only [List.mem_cons, List.mem_singleton] at hinp
    rcases hinp with h | h | h | h
    · rw [h]; rfl
    · rw [h]; rfl
    · rw [h]; rfl
    · simp at h
  have haft : ∀ inp ∈ ([{ name := "a" }, { name := "b" }, { name := "c" }] : List InputDef),
      inp.onAfterInput = none := by
    intro inp hinp
    simp only [List.mem_cons, List.mem_singleton] at hinp
    rcases hinp with h | h | h | h
    · rw [h]
    · rw [h]
    · rw [h]
    · simp at h
  exact ⟨⟨hpre, haft⟩,
    C7_cancellation "T" [{ name := "a" }, { name := "b" }, { name := "c" }]
      [Val.str "x"] {} hpre haft (by decide) (by decide)⟩

/-! ## Claim C2: a false precondition skips the step -/

/-- C2: if the step at 0-based position `j` (the claim's step
`k = j + 1`, with `1 < k < N`) has a false `onBeforeInput` on the
forward pass while every other precondition is true and every
presentation resolves to an answer, then that step's `showDialog` is
never invoked (the `i`-th presentation for `i ≥ j` is of the input at
position `i + 1`), every step presented after position `j` receives
`totalNumber = N - 1` in its title, and on completion the accumulator
has no entry under the skipped step's name. -/
theorem C2_skipped_step (title : String) (inputs : List InputDef)
    (vs : List Val) (dv0 : DialogValues) (j : Nat)
    (hj1 : 1 ≤ j) (hj2 : j + 1 < inputs.length)
    (hpreT : ∀ i, i < inputs.length → i ≠ j →
      ∀ dv, evalPre (inputs.getD i default) dv = true)
    (hpreF : ∀ dv, evalPre (inputs.getD j default) dv = false)
    (haft : ∀ inp ∈ inputs, inp.onAfterInput = none)
    (hnames : ∀ i, i < inputs.length → i ≠ j →
      (inputs.getD i default).name ≠ (inputs.getD j default).name)
    (hfresh : dv0.get (inputs.getD j default).name = none)
    (hlen : vs.length = inputs.length - 1)
    (hback : ∀ v ∈ vs, v ≠ InputAction.BACK) :
    (run title inputs (inputs.length + 1)
       (initState inputs dv0 (vs.map some))).outcome = RunOutcome.completed ∧
    (run title inputs (inputs.length + 1)
       (initState inputs dv0 (vs.map some))).final.presentations.length =
      inputs.length - 1 ∧
    (∀ i, i < j →
      ((run title inputs (inputs.length + 1)
         (initState inputs dv0 (vs.map some))).final.presentations.map presObs)[i]? =
        some ((inputs.getD i default).name, (i : Int) + 1, (inputs.length : Int),
          generateStepOutput title ((i : Int) + 1) (inputs.length : Int),
          decide ((i : Int) + 1 ≠ 1))) ∧
    (∀ i, j ≤ i → i < inputs.length - 1 →
      ((run title inputs (inputs.length + 1)
         (initState inputs dv0 (vs.map some))).final.presentations.map presObs)[i]? =
        some ((inputs.getD (i + 1) default).name, (i : Int) + 1,
          (inputs.length : Int) - 1,
          generateStepOutput title ((i : Int) + 1) ((inputs.length : Int) - 1),
          decide ((i : Int) + 1 ≠ 1))) ∧
    (run title inputs (inputs.length + 1)
       (initState inputs dv0 (vs.map some))).final.dialogValues.get
      (inputs.getD j default).name = none := by
  have hjvs : j ≤ vs.length := by omega
  have hlen1 : (vs.take j).length = j := by
    rw [List.length_take]
    omega
  have hlen2 : (vs.drop j).length = vs.length - j := by
    rw [List.length_drop]
  -- phase 1: the j steps before the skipped one
  have hrange1 : ∀ m, m < (vs.take j).length →
      (initState inputs dv0 (vs.map some)).idx + m < inputs.length ∧
      ∀ dv, evalPre (inputs.getD
        ((initState inputs dv0 (vs.map some)).idx + m) default) dv = true := by
    intro m hm
    rw [hlen1] at hm
    have hmN : m < inputs.length := by omega
    refine ⟨by simpa [initState] using hmN, fun dv => ?_⟩
    have : (initState inputs dv0 (vs.map some)).idx + m = m := by simp [initState]
    rw [this]
    exact hpreT m hmN (by omega) dv
  have hsplit : (initState inputs dv0 (vs.map some)).responses =
      (vs.take j).map some ++ (vs.drop j).map some := by
    rw [← List.map_append, List.take_append_drop]
    rfl
  have e1 := run_advA title inputs (vs.take j) (((vs.drop j).length + 1) + 1)
    (initState inputs dv0 (vs.map some)) ((vs.drop j).map some)
    (by simp [initState]) hsplit
    (fun v hv => hback v (List.mem_of_mem_take hv)) hrange1
  set A1 := advA title inputs (initState inputs dv0 (vs.map some)) (vs.take j) with hA1
  have hA1idx : A1.idx = j := by
    rw [hA1, advA_idx]
    simp [initState, hlen1]
  have hA1sn : A1.currentStep.stepNumber = 1 + (j : Int) := by
    rw [hA1, advA_stepNumber]
    simp [initState, hlen1]
  have hA1tn : A1.currentStep.totalNumber = (inputs.length : Int) := by
    rw [hA1, advA_totalNumber]
    simp [initState]
  have hA1gbp : A1.currentStep.goingBackProcess = false := by
    rw [hA1]
    exact advA_goingBackProcess title inputs _ _ (by simp [initState])
  have hA1resp : A1.responses = (vs.drop j).map some := by
    rw [hA1]
    exact advA_responses title inputs _ _ _ hsplit
  have hA1pres : A1.presentations.map presObs =
      presList title inputs 0 1 (inputs.length : Int) j := by
    rw [hA1, advA_presentations]
    simp [initState, hlen1]
  have hA1dv : A1.dialogValues = addValues dv0 (pairsOf inputs 0 (vs.take j)) := by
    rw [hA1, advA_dialogValues]
    · simp [initState]
    · intro m hm
      rw [hlen1] at hm
      refine haft _ ?_
      have hmN : m < inputs.length := by omega
      simpa [initState] using getD_mem inputs m hmN
  -- phase 2: the skipped step
  have hidx1 : A1.idx < inputs.length := by omega
  have hget1 : inputs[A1.idx]? = some (inputs.getD A1.idx default) :=
    getElem?_eq_some_getD inputs A1.idx hidx1
  have hpre1 : evalPre (inputs.getD A1.idx default) A1.dialogValues = false := by
    rw [hA1idx]
    exact hpreF _
  have e2 : run title inputs (((vs.drop j).length + 1) + 1) A1 =
      run title inputs ((vs.drop j).length + 1) (skipStep A1) :=
    run_cont hidx1 (handleInputStep_skip title hget1 hpre1 hA1gbp)
  -- phase 3: the steps after the skipped one
  have hSidx : (skipStep A1).idx = j + 1 := by simp [skipStep, hA1idx]
  have hSsn : (skipStep A1).currentStep.stepNumber = 1 + (j : Int) := by
    simp [skipStep, hA1sn]
  have hStn : (skipStep A1).currentStep.totalNumber = (inputs.length : Int) - 1 := by
    simp [skipStep, hA1tn]
  have hSgbp : (skipStep A1).currentStep.goingBackProcess = false := by
    simp [skipStep, hA1gbp]
  have hSresp : (skipStep A1).responses = (vs.drop j).map some ++ [] := by
    simp [skipStep, hA1resp]
  have hrange2 : ∀ m, m < (vs.drop j).length →
      (skipStep A1).idx + m < inputs.length ∧
      ∀ dv, evalPre (inputs.getD ((skipStep A1).idx + m) default) dv = true := by
    intro m hm
    rw [hlen2] at hm
    have hiN : j + 1 + m < inputs.length := by omega
    refine ⟨by rw [hSidx]; exact hiN, fun dv => ?_⟩
    rw [hSidx]
    exact hpreT (j + 1 + m) hiN (by omega) dv
  have e3 := run_advA title inputs (vs.drop j) 1 (skipStep A1) []
    hSgbp hSresp (fun v hv => hback v (List.mem_of_mem_drop hv)) hrange2
  set A2 := advA title inputs (skipStep A1) (vs.drop j) with hA2
  have hA2idx : A2.idx = inputs.length := by
    rw [hA2, advA_idx, hSidx, hlen2]
    omega
  have e4 : run title inputs 1 A2 = ⟨RunOutcome.completed, A2⟩ :=
    run_done (le_of_eq hA2idx.symm)
  have hfull : run title inputs (inputs.length + 1)
      (initState inputs dv0 (vs.map some)) = ⟨RunOutcome.completed, A2⟩ := by
    rw [show inputs.length + 1 = (vs.take j).length + (((vs.drop j).length + 1) + 1) from
      by omega]
    rw [e1, e2, e3, e4]
  -- the final observation log and accumulator
  have htrace : A2.presentations.map presObs =
      presList title inputs 0 1 (inputs.length : Int) j ++
        presList title inputs (j + 1) (1 + (j : Int)) ((inputs.length : Int) - 1)
          (vs.length - j) := by
    rw [hA2, advA_presentations]
    rw [show (skipStep A1).presentations = A1.presentations from rfl]
    rw [hA1pres, hSidx, hSsn, hStn, hlen2]
  have hdv2 : A2.dialogValues =
      addValues (addValues dv0 (pairsOf inputs 0 (vs.take j)))
        (pairsOf inputs (j + 1) (vs.drop j)) := by
    rw [hA2, advA_dialogValues]
    · rw [show (skipStep A1).dialogValues = A1.dialogValues from rfl, hA1dv, hSidx]
    · intro m hm
      rw [hlen2] at hm
      rw [hSidx]
      refine haft _ ?_
      have : j + 1 + m < inputs.length := by omega
      exact getD_mem inputs _ this
  refine ⟨by rw [hfull], ?_, ?_, ?_, ?_⟩
  · rw [hfull]
    rw [show (RunResult.mk RunOutcome.completed A2).final = A2 from rfl]
    have := congrArg List.length htrace
    rw [List.length_map, List.length_append, presList_length, presList_length] at this
    omega
  · intro i hi
    rw [hfull]
    rw [show (RunResult.mk RunOutcome.completed A2).final = A2 from rfl]
    rw [htrace]
    rw [List.getElem?_append_left (by rw [presList_length]; exact hi)]
    rw [presList_getElem? title inputs j i 0 1 (inputs.length : Int) hi]
    rw [show (0 : Nat) + i = i from by omega,
      show (1 : Int) + (i : Int) = (i : Int) + 1 from by ring]
  · intro i hij hiN
    rw [hfull]
    rw [show (RunResult.mk RunOutcome.completed A2).final = A2 from rfl]
    rw [htrace]
    rw [List.getElem?_append_right (by rw [presList_length]; exact hij)]
    rw [presList_length]
    have hiv : i - j < vs.length - j := by omega
    rw [presList_getElem? title inputs (vs.length - j) (i - j) (j + 1)
      (1 + (j : Int)) ((inputs.length : Int) - 1) hiv]
    have e5 : j + 1 + (i - j) = i + 1 := by omega
    have e6 : 1 + (j : Int) + ((i - j : Nat) : Int) = (i : Int) + 1 := by
      have : ((i - j : Nat) : Int) = (i : Int) - (j : Int) := by
        push_cast [Nat.cast_sub hij]
        ring
      rw [this]
      ring
    rw [e5, e6]
  · rw [hfull]
    rw [show (RunResult.mk RunOutcome.completed A2).final = A2 from rfl]
    rw [hdv2]
    rw [get_addValues_notMem _ _ _ ?_, get_addValues_notMem _ _ _ ?_]
    · exact hfresh
    · intro q hq
      obtain ⟨m, hm, he⟩ := pairsOf_fst inputs (vs.take j) 0 q hq
      rw [hlen1] at hm
      rw [he, Nat.zero_add]
      exact hnames m (by omega) (by omega)
    · intro q hq
      obtain ⟨m, hm, he⟩ := pairsOf_fst inputs (vs.drop j) (j + 1) q hq
      rw [hlen2] at hm
      rw [he]
      exact hnames (j + 1 + m) (by omega) (by omega)

/-- Concrete three-step wizard whose middle step is always skipped. -/
def w2Inputs : List InputDef :=
  [{ name := "a" }, { name := "b", onBeforeInput := some (fun _ => false) },
   { name := "c" }]

/-- Witness for C2: the middle step of `w2Inputs` is skipped. -/
theorem C2_skipped_step_witness :
    ((1 ≤ 1 ∧ 1 + 1 < w2Inputs.length) ∧
     (∀ i, i < w2Inputs.length → i ≠ 1 →
        ∀ dv, evalPre (w2Inputs.getD i default) dv = true) ∧
     (∀ dv, evalPre (w2Inputs.getD 1 default) dv = false) ∧
     (DialogValues.get {} (w2Inputs.getD 1 default).name = none)) ∧
    ((run "T" w2Inputs (w2Inputs.length + 1)
       (initState w2Inputs {} ([Val.str "x", Val.str "y"].map some))).outcome =
        RunOutcome.completed ∧
    (run "T" w2Inputs (w2Inputs.length + 1)
       (initState w2Inputs {} ([Val.str "x", Val.str "y"].map some))).final.presentations.length =
      w2Inputs.length - 1 ∧
    (∀ i, i < 1 →
      ((run "T" w2Inputs (w2Inputs.length + 1)
         (initState w2Inputs {} ([Val.str "x", Val.str "y"].map some))).final.presentations.map
          presObs)[i]? =
        some ((w2Inputs.getD i default).name, (i : Int) + 1, (w2Inputs.length : Int),
          generateStepOutput "T" ((i : Int) + 1) (w2Inputs.length : Int),
          decide ((i : Int) + 1 ≠ 1))) ∧
    (∀ i, 1 ≤ i → i < w2Inputs.length - 1 →
      ((run "T" w2Inputs (w2Inputs.length + 1)
         (initState w2Inputs {} ([Val.str "x", Val.str "y"].map some))).final.presentations.map
          presObs)[i]? =
        some ((w2Inputs.getD (i + 1) default).name, (i : Int) + 1,
          (w2Inputs.length : Int) - 1,
          generateStepOutput "T" ((i : Int) + 1) ((w2Inputs.length : Int) - 1),
          decide ((i : Int) + 1 ≠ 1))) ∧
    (run "T" w2Inputs (w2Inputs.length + 1)
       (initState w2Inputs {} ([Val.str "x", Val.str "y"].map some))).final.dialogValues.get
      (w2Inputs.getD 1 default).name = none) := by
  have hpreT : ∀ i, i < w2Inputs.length → i ≠ 1 →
      ∀ dv, evalPre (w2Inputs.getD i default) dv = true := by
    intro i hi hne dv
    have : i = 0 ∨ i = 2 := by
      simp only [w2Inputs, List.length_cons, List.length_nil] at hi
      omega
    rcases this with h | h <;> subst h <;> rfl
  have hpreF : ∀ dv, evalPre (w2Inputs.getD 1 default) dv = false := fun _ => rfl
  have haft : ∀ inp ∈ w2Inputs, inp.onAfterInput = none := by
    intro inp hinp
    simp only [w2Inputs, List.mem_cons, List.mem_singleton] at hinp
    rcases hinp with h | h | h | h
    · rw [h]
    · rw [h]
    · rw [h]
    · simp at h
  have hnames : ∀ i, i < w2Inputs.length → i ≠ 1 →
      (w2Inputs.getD i default).name ≠ (w2Inputs.getD 1 default).name := by
    intro i hi hne
    have : i = 0 ∨ i = 2 := by
      simp only [w2Inputs, List.length_cons, List.length_nil] at hi
      omega
    rcases this with h | h <;> subst h <;> decide
  exact ⟨⟨⟨le_refl 1, by decide⟩, hpreT, hpreF, rfl⟩,
    C2_skipped_step "T" w2Inputs [Val.str "x", Val.str "y"] {} 1
      (le_refl 1) (by decide) hpreT hpreF haft hnames rfl rfl (by decide)⟩

/-! ## Lemmas about the backward walk -/

theorem walkBack_here {inputs : List InputDef} {nm : String} {i : Nat}
    {inp : InputDef} (h : inputs[i]? = some inp) (heq : inp.name = nm) :
    walkBack inputs nm i = some i := by
  cases i with
  | zero =>
    rw [walkBack, h]
    simp [heq]
  | succ m =>
    rw [walkBack, h]
    simp [heq]

theorem walkBack_succ_ne {inputs : List InputDef} {nm : String} {i : Nat}
    {inp : InputDef} (h : inputs[i + 1]? = some inp) (hne : inp.name ≠ nm) :
    walkBack inputs nm (i + 1) = walkBack inputs nm i := by
  rw [walkBack, h]
  simp [hne]

/-! ## Claim C3: back navigation restores the recorded counters -/

/-- C3 (amended: step `K`'s name must be a non-empty string — see the
counterexample below for the empty-name failure): after steps `1 .. K`
are answered (`K = ws.length + 1`; the answers are `ws ++ [a]`, all
preconditions true) and step `K + 1` resolves to `NavigateBack`, the
engine re-presents step `K` (trace index `ws.length + 2`) with exactly
the `(stepNumber, totalNumber)` pair of its first presentation (trace
index `ws.length`), and at that moment the accumulator still holds step
`K`'s answer `a` under its name. -/
theorem C3_back_roundtrip (title : String) (inputs : List InputDef)
    (ws : List Val) (a : Val) (dv0 : DialogValues)
    (hK : ws.length + 1 < inputs.length)
    (hpre : ∀ inp ∈ inputs, ∀ dv, evalPre inp dv = true)
    (haft : ∀ inp ∈ inputs, inp.onAfterInput = none)
    (hne : (inputs.getD (ws.length + 1) default).name ≠
      (inputs.getD ws.length default).name)
    (hnm : (inputs.getD ws.length default).name ≠ "")
    (hback : ∀ v ∈ ws, v ≠ InputAction.BACK)
    (ha : a ≠ InputAction.BACK) :
    ∃ p q,
      (run title inputs (ws.length + 3)
        (initState inputs dv0
          ((ws ++ [a]).map some ++ [some InputAction.BACK]))).final.presentations[ws.length]? =
        some p ∧
      (run title inputs (ws.length + 3)
        (initState inputs dv0
          ((ws ++ [a]).map some ++
            [some InputAction.BACK]))).final.presentations[ws.length + 2]? =
        some q ∧
      p.name = (inputs.getD ws.length default).name ∧
      q.name = p.name ∧
      q.stepNumber = p.stepNumber ∧
      q.totalNumber = p.totalNumber ∧
      getVals q.values p.name = some (normVal a) := by
  have hWlt : ws.length < inputs.length := by omega
  -- phase 1: answer ws ++ [a]
  have hrange1 : ∀ m, m < (ws ++ [a]).length →
      (initState inputs dv0 ((ws ++ [a]).map some ++ [some InputAction.BACK])).idx + m <
        inputs.length ∧
      ∀ dv, evalPre (inputs.getD
        ((initState inputs dv0
          ((ws ++ [a]).map some ++ [some InputAction.BACK])).idx + m) default) dv = true := by
    intro m hm
    rw [List.length_append, List.length_singleton] at hm
    have hmN : m < inputs.length := by omega
    refine ⟨by simpa [initState] using hmN, fun dv => ?_⟩
    have : (initState inputs dv0 ((ws ++ [a]).map some ++ [some InputAction.BACK])).idx +
        m = m := by simp [initState]
    rw [this]
    exact hpre _ (getD_mem inputs m hmN) dv
  have hback1 : ∀ v ∈ ws ++ [a], v ≠ InputAction.BACK := by
    intro v hv
    rcases List.mem_append.mp hv with h | h
    · exact hback v h
    · rw [List.mem_singleton.mp h]
      exact ha
  have e1 := run_advA title inputs (ws ++ [a]) 2
    (initState inputs dv0 ((ws ++ [a]).map some ++ [some InputAction.BACK]))
    [some InputAction.BACK] (by simp [initState]) (by simp [initState]) hback1 hrange1
  set A := advA title inputs
    (initState inputs dv0 ((ws ++ [a]).map some ++ [some InputAction.BACK]))
    (ws ++ [a]) with hA
  have hAidx : A.idx = ws.length + 1 := by
    rw [hA, advA_idx]
    simp [initState]
  have hAsn : A.currentStep.stepNumber = 1 + ((ws.length : Int) + 1) := by
    rw [hA, advA_stepNumber]
    simp [initState]
  have hAtn : A.currentStep.totalNumber = (inputs.length : Int) := by
    rw [hA, advA_totalNumber]
    simp [initState]
  have hAgbp : A.currentStep.goingBackProcess = false := by
    rw [hA]
    exact advA_goingBackProcess title inputs _ _ (by simp [initState])
  have hAresp : A.responses = [some InputAction.BACK] := by
    rw [hA]
    exact advA_responses title inputs _ _ _ (by simp [initState])
  have hApres : A.presentations.map presObs =
      presList title inputs 0 1 (inputs.length : Int) (ws.length + 1) := by
    rw [hA, advA_presentations]
    simp [initState]
  have hAdv : A.dialogValues = addValues dv0 (pairsOf inputs 0 (ws ++ [a])) := by
    rw [hA, advA_dialogValues]
    · simp [initState]
    · intro m hm
      rw [List.length_append, List.length_singleton] at hm
      have hmN : m < inputs.length := by omega
      refine haft _ ?_
      simpa [initState] using getD_mem inputs m hmN
  obtain ⟨tl, htop⟩ := advA_takenSteps_top title inputs (ws ++ [a])
    (initState inputs dv0 ((ws ++ [a]).map some ++ [some InputAction.BACK]))
    (by simp)
  rw [← hA] at htop
  have htop' : A.takenSteps =
      { name := some (inputs.getD ws.length default).name
        stepNumber := 1 + ((ws.length : Int) + 1) - 1
        totalNumber := (inputs.length : Int)
        goingBackProcess := false } :: tl := by
    rw [htop]
    have e2 : (initState inputs dv0
        ((ws ++ [a]).map some ++ [some InputAction.BACK])).idx + (ws ++ [a]).length - 1 =
        ws.length := by
      simp [initState]
    have e3 : (initState inputs dv0
        ((ws ++ [a]).map some ++
          [some InputAction.BACK])).currentStep.stepNumber + ((ws ++ [a]).length : Int) - 1 =
        1 + ((ws.length : Int) + 1) - 1 := by
      simp [initState]
    have e4 : (initState inputs dv0
        ((ws ++ [a]).map some ++
          [some InputAction.BACK])).currentStep.totalNumber = (inputs.length : Int) := by
      simp [initState]
    rw [e2, e3, e4]
  -- phase 2: the BACK answer at step K+1 pops the record and walks to K
  have hwalk : walkBack inputs (inputs.getD ws.length default).name (ws.length + 1) =
      some ws.length := by
    rw [walkBack_succ_ne (getElem?_eq_some_getD inputs (ws.length + 1) hK) hne]
    exact walkBack_here (getElem?_eq_some_getD inputs ws.length hWlt) rfl
  have hgb : handleGoingBack inputs A.takenSteps A.currentStep A.idx =
      ({ name := some (inputs.getD ws.length default).name
         stepNumber := 1 + ((ws.length : Int) + 1) - 1
         totalNumber := (inputs.length : Int)
         goingBackProcess := true }, tl, some ws.length) := by
    rw [htop']
    simp only [handleGoingBack]
    rw [if_neg hnm, hAidx, hwalk]
  have hidxA : A.idx < inputs.length := by omega
  have hgetA : inputs[A.idx]? = some (inputs.getD A.idx default) :=
    getElem?_eq_some_getD inputs A.idx hidxA
  have hpreA : evalPre (inputs.getD A.idx default) A.dialogValues = true :=
    hpre _ (getD_mem inputs A.idx hidxA) _
  have hrespA : A.responses = some InputAction.BACK :: [] := hAresp
  have e5 : run title inputs (1 + 1) A = run title inputs 1
      { A with
        currentStep := { name := some (inputs.getD ws.length default).name
                         stepNumber := 1 + ((ws.length : Int) + 1) - 1
                         totalNumber := (inputs.length : Int)
                         goingBackProcess := true }
        takenSteps := tl
        idx := ws.length
        presentations := A.presentations ++
          [presOf title (inputs.getD A.idx default) A.currentStep.stepNumber
            A.currentStep.totalNumber A.dialogValues A.takenSteps.length]
        responses := [] } :=
    run_cont hidxA (handleInputStep_back title hgetA hpreA hrespA hgb)
  -- phase 3: the re-presentation of step K
  set B : EngineState :=
    { A with
      currentStep := { name := some (inputs.getD ws.length default).name
                       stepNumber := 1 + ((ws.length : Int) + 1) - 1
                       totalNumber := (inputs.length : Int)
                       goingBackProcess := true }
      takenSteps := tl
      idx := ws.length
      presentations := A.presentations ++
        [presOf title (inputs.getD A.idx default) A.currentStep.stepNumber
          A.currentStep.totalNumber A.dialogValues A.takenSteps.length]
      responses := [] } with hBdef
  have hidxB : B.idx < inputs.length := hWlt
  have hgetB : inputs[B.idx]? = some (inputs.getD B.idx default) :=
    getElem?_eq_some_getD inputs B.idx hidxB
  have hpreB : evalPre (inputs.getD B.idx default) B.dialogValues = true :=
    hpre _ (getD_mem inputs B.idx hidxB) _
  have e6 : run title inputs 1 B = ⟨RunOutcome.outOfResponses,
      { B with
        presentations := B.presentations ++
          [presOf title (inputs.getD B.idx default) B.currentStep.stepNumber
            B.currentStep.totalNumber B.dialogValues B.takenSteps.length] }⟩ :=
    run_outOfResponses hidxB (handleInputStep_noResponse title hgetB hpreB rfl)
  have hfull : run title inputs (ws.length + 3)
      (initState inputs dv0 ((ws ++ [a]).map some ++ [some InputAction.BACK])) =
      ⟨RunOutcome.outOfResponses,
        { B with
          presentations := B.presentations ++
            [presOf title (inputs.getD B.idx default) B.currentStep.stepNumber
              B.currentStep.totalNumber B.dialogValues B.takenSteps.length] }⟩ := by
    rw [show ws.length + 3 = (ws ++ [a]).length + 2 from by
      rw [List.length_append, List.length_singleton]]
    rw [e1, e5, e6]
  have hAlen : A.presentations.length = ws.length + 1 := by
    have := congrArg List.length hApres
    rw [List.length_map, presList_length] at this
    exact this
  -- the first presentation of step K, from the forward trace
  have hmapK : (A.presentations.map presObs)[ws.length]? =
      some ((inputs.getD (0 + ws.length) default).name, 1 + (ws.length : Int),
        (inputs.length : Int),
        generateStepOutput title (1 + (ws.length : Int)) (inputs.length : Int),
        decide (1 + (ws.length : Int) ≠ 1)) := by
    rw [hApres]
    exact presList_getElem? title inputs (ws.length + 1) ws.length 0 1
      (inputs.length : Int) (by omega)
  rw [List.getElem?_map] at hmapK
  obtain ⟨p, hp, hobs⟩ := Option.map_eq_some'.mp hmapK
  have hpn : p.name = (inputs.getD ws.length default).name := by
    have := congrArg Prod.fst hobs
    simpa [presObs] using this
  have hpsn : p.stepNumber = 1 + (ws.length : Int) := by
    have := congrArg (fun t => t.2.1) hobs
    simpa [presObs] using this
  have hptn : p.totalNumber = (inputs.length : Int) := by
    have := congrArg (fun t => t.2.2.1) hobs
    simpa [presObs] using this
  refine ⟨p, presOf title (inputs.getD B.idx default) B.currentStep.stepNumber
    B.currentStep.totalNumber B.dialogValues B.takenSteps.length, ?_, ?_, ?_, ?_, ?_, ?_, ?_⟩
  · rw [hfull]
    show ((A.presentations ++ _) ++ _)[ws.length]? = some p
    rw [List.getElem?_append_left (by rw [List.length_append, hAlen]; omega),
      List.getElem?_append_left (by rw [hAlen]; omega)]
    exact hp
  · rw [hfull]
    show (B.presentations ++ _)[ws.length + 2]? = _
    have hBlen : B.presentations.length = ws.length + 2 := by
      show (A.presentations ++ _).length = _
      rw [List.length_append, hAlen, List.length_singleton]
    rw [List.getElem?_append_right (by omega), hBlen]
    rw [show ws.length + 2 - (ws.length + 2) = 0 from by omega]
    rfl
  · exact hpn
  · show (inputs.getD B.idx default).name = p.name
    rw [hpn]
  · show B.currentStep.stepNumber = p.stepNumber
    rw [hpsn]
    show 1 + ((ws.length : Int) + 1) - 1 = 1 + (ws.length : Int)
    ring
  · show B.currentStep.totalNumber = p.totalNumber
    rw [hptn]
  · show getVals B.dialogValues.inputValues p.name = some (normVal a)
    have hBdv : B.dialogValues = A.dialogValues := rfl
    rw [hBdv, hpn, hAdv]
    rw [pairsOf_append inputs ws [a] 0, Nat.zero_add]
    rw [show pairsOf inputs ws.length [a] =
      [((inputs.getD ws.length default).name, a)] from rfl]
    exact get_addValues_last dv0 _ _ a

/-- Witness for C3: three steps named a, b, c; answer a and b, then
navigate back at c. -/
theorem C3_back_roundtrip_witness :
    ((([Val.str "x"] : List Val).length + 1 <
        ([{ name := "a" }, { name := "b" }, { name := "c" }] : List InputDef).length) ∧
     (∀ inp ∈ ([{ name := "a" }, { name := "b" }, { name := "c" }] : List InputDef),
        ∀ dv, evalPre inp dv = true) ∧
     (([{ name := "a" }, { name := "b" }, { name := "c" }] : List InputDef).getD
        (([Val.str "x"] : List Val).length + 1) default).name ≠
       (([{ name := "a" }, { name := "b" }, { name := "c" }] : List InputDef).getD
        ([Val.str "x"] : List Val).length default).name) ∧
    (∃ p q,
      (run "T" [{ name := "a" }, { name := "b" }, { name := "c" }]
        (([Val.str "x"] : List Val).length + 3)
        (initState [{ name := "a" }, { name := "b" }, { name := "c" }] {}
          (([Val.str "x"] ++ [Val.str "y"]).map some ++
            [some InputAction.BACK]))).final.presentations[([Val.str "x"] : List Val).length]? =
        some p ∧
      (run "T" [{ name := "a" }, { name := "b" }, { name := "c" }]
        (([Val.str "x"] : List Val).length + 3)
        (initState [{ name := "a" }, { name := "b" }, { name := "c" }] {}
          (([Val.str "x"] ++ [Val.str "y"]).map some ++
            [some InputAction.BACK]))).final.presentations[([Val.str "x"] : List Val).length + 2]? =
        some q ∧
      p.name = (([{ name := "a" }, { name := "b" }, { name := "c" }] : List InputDef).getD
        ([Val.str "x"] : List Val).length default).name ∧
      q.name = p.name ∧
      q.stepNumber = p.stepNumber ∧
      q.totalNumber = p.totalNumber ∧
      getVals q.values p.name = some (normVal (Val.str "y"))) := by
  have hpre : ∀ inp ∈ ([{ name := "a" }, { name := "b" }, { name := "c" }] : List InputDef),
      ∀ dv, evalPre inp dv = true := by
    intro inp hinp dv
    simp only [List.mem_cons, List.mem_singleton] at hinp
    rcases hinp with h | h | h | h
    · rw [h]; rfl
    · rw [h]; rfl
    · rw [h]; rfl
    · simp at h
  have haft : ∀ inp ∈ ([{ name := "a" }, { name := "b" }, { name := "c" }] : List InputDef),
      inp.onAfterInput = none := by
    intro inp hinp
    simp only [List.mem_cons, List.mem_singleton] at hinp
    rcases hinp with h | h | h | h
    · rw [h]
    · rw [h]
    · rw [h]
    · simp at h
  exact ⟨⟨by decide, hpre, by decide⟩,
    C3_back_roundtrip "T" [{ name := "a" }, { name := "b" }, { name := "c" }]
      [Val.str "x"] (Val.str "y") {} (by decide) hpre haft (by decide) (by decide)
      (by decide) (by decide)⟩

/-- Counterexample to C3 as stated (without the non-empty-name
proviso): with step `K = 2` named `""`, answering steps 1 and 2 and
navigating back at step 3 does not re-present step 2 — the popped Step
Record's empty name is falsy in `handleGoingBack`'s
`if (goToStep?.name)` check, so the record is dropped without moving
the cursor and step 3 is presented again (observation log
`a (Step 1 of 3)`, `"" (Step 2 of 3)`, `c (Step 3 of 3)`,
`c (Step 3 of 3)`). -/
theorem C3_back_roundtrip_counterexample :
    ¬ (∃ p q,
      (run "T" [{ name := "a" }, { name := "" }, { name := "c" }]
        (([Val.str "x"] : List Val).length + 3)
        (initState [{ name := "a" }, { name := "" }, { name := "c" }] {}
          (([Val.str "x"] ++ [Val.str "y"]).map some ++
            [some InputAction.BACK]))).final.presentations[([Val.str "x"] : List Val).length]? =
        some p ∧
      (run "T" [{ name := "a" }, { name := "" }, { name := "c" }]
        (([Val.str "x"] : List Val).length + 3)
        (initState [{ name := "a" }, { name := "" }, { name := "c" }] {}
          (([Val.str "x"] ++ [Val.str "y"]).map some ++
            [some InputAction.BACK]))).final.presentations[([Val.str "x"] : List Val).length + 2]? =
        some q ∧
      p.name = (([{ name := "a" }, { name := "" }, { name := "c" }] : List InputDef).getD
        ([Val.str "x"] : List Val).length default).name ∧
      q.name = p.name ∧
      q.stepNumber = p.stepNumber ∧
      q.totalNumber = p.totalNumber ∧
      getVals q.values p.name = some (normVal (Val.str "y"))) := by
  rintro ⟨p, q, hp, hq, hpn, hqn, -, -, -⟩
  have e1 : ((run "T" [{ name := "a" }, { name := "" }, { name := "c" }]
      (([Val.str "x"] : List Val).length + 3)
      (initState [{ name := "a" }, { name := "" }, { name := "c" }] {}
        (([Val.str "x"] ++ [Val.str "y"]).map some ++
          [some InputAction.BACK]))).final.presentations[([Val.str "x"] : List Val).length]?).map
      Presentation.name = some "" := by decide
  have e2 : ((run "T" [{ name := "a" }, { name := "" }, { name := "c" }]
      (([Val.str "x"] : List Val).length + 3)
      (initState [{ name := "a" }, { name := "" }, { name := "c" }] {}
        (([Val.str "x"] ++ [Val.str "y"]).map some ++
          [some InputAction.BACK]))).final.presentations[([Val.str "x"] : List Val).length + 2]?).map
      Presentation.name = some "c" := by decide
  rw [hp] at e1
  rw [hq] at e2
  simp only [Option.map_some', Option.some.injEq] at e1 e2
  rw [hqn, e1] at e2
  exact absurd e2 (by decide)

/-! ## Claim C4: back navigation across a skipped step -/

/-- C4 (amended: `A`'s name must be a non-empty string — see the
counterexample below for the empty-name failure): for the three-step
list `[A, B, C]` where `B`'s `onBeforeInput` returns false, after `A`
is answered and `C`'s presentation resolves to `NavigateBack`, the
cursor moves directly back to `A` — the full observation log is
`A (Step 1 of 3)`, `C (Step 2 of 2)`, then `A` re-presented with the
`(1, 3)` pair recorded when `A` was answered; `B` is never
presented. -/
theorem C4_back_across_skip (title : String) (iA iB iC : InputDef)
    (a : Val) (dv0 : DialogValues)
    (hA : ∀ dv, evalPre iA dv = true)
    (hB : ∀ dv, evalPre iB dv = false)
    (hC : ∀ dv, evalPre iC dv = true)
    (hAname : iA.name ≠ "")
    (hBA : iB.name ≠ iA.name)
    (hCA : iC.name ≠ iA.name)
    (ha : a ≠ InputAction.BACK) :
    (run title [iA, iB, iC] 4
      (initState [iA, iB, iC] dv0
        [some a, some InputAction.BACK])).final.presentations.map presObs =
      [(iA.name, 1, 3, generateStepOutput title 1 3, false),
       (iC.name, 2, 2, generateStepOutput title 2 2, true),
       (iA.name, 1, 3, generateStepOutput title 1 3, false)] := by
  have hresp0 : (initState [iA, iB, iC] dv0 [some a, some InputAction.BACK]).responses =
      some a :: [some InputAction.BACK] := rfl
  have e1 : run title [iA, iB, iC] 4
      (initState [iA, iB, iC] dv0 [some a, some InputAction.BACK]) =
      run title [iA, iB, iC] 3
        (answerStep title iA a
          (initState [iA, iB, iC] dv0 [some a, some InputAction.BACK])
          [some InputAction.BACK]) :=
    run_cont (show (0 : Nat) < 3 by norm_num) (handleInputStep_answer title rfl (hA _) hresp0 ha)
  set s1 := answerStep title iA a
    (initState [iA, iB, iC] dv0 [some a, some InputAction.BACK])
    [some InputAction.BACK] with hs1
  have e2 : run title [iA, iB, iC] 3 s1 = run title [iA, iB, iC] 2 (skipStep s1) :=
    run_cont (show (1 : Nat) < 3 by norm_num) (handleInputStep_skip title rfl (hB _) rfl)
  have hwalk : walkBack [iA, iB, iC] iA.name 2 = some 0 := by
    rw [show (2 : Nat) = 1 + 1 from rfl, walkBack_succ_ne rfl hCA,
      walkBack_succ_ne rfl hBA]
    exact walkBack_here rfl rfl
  have hgb : handleGoingBack [iA, iB, iC] (skipStep s1).takenSteps
      (skipStep s1).currentStep (skipStep s1).idx =
      ({ name := some iA.name, stepNumber := 1, totalNumber := 3,
         goingBackProcess := true }, [], some 0) := by
    show handleGoingBack [iA, iB, iC]
      [{ name := some iA.name, stepNumber := 1, totalNumber := 3,
         goingBackProcess := false }] (skipStep s1).currentStep 2 = _
    simp only [handleGoingBack]
    rw [if_neg hAname, hwalk]
  have e3 : run title [iA, iB, iC] 2 (skipStep s1) =
      run title [iA, iB, iC] 1
        { skipStep s1 with
          currentStep := { name := some iA.name, stepNumber := 1, totalNumber := 3,
                           goingBackProcess := true }
          takenSteps := []
          idx := 0
          presentations := (skipStep s1).presentations ++
            [presOf title iC (skipStep s1).currentStep.stepNumber
              (skipStep s1).currentStep.totalNumber (skipStep s1).dialogValues
              (skipStep s1).takenSteps.length]
          responses := [] } :=
    run_cont (show (2 : Nat) < 3 by norm_num) (handleInputStep_back title rfl (hC _) rfl hgb)
  set s3 : EngineState :=
    { skipStep s1 with
      currentStep := { name := some iA.name, stepNumber := 1, totalNumber := 3,
                       goingBackProcess := true }
      takenSteps := []
      idx := 0
      presentations := (skipStep s1).presentations ++
        [presOf title iC (skipStep s1).currentStep.stepNumber
          (skipStep s1).currentStep.totalNumber (skipStep s1).dialogValues
          (skipStep s1).takenSteps.length]
      responses := [] } with hs3
  have e4 : run title [iA, iB, iC] 1 s3 = ⟨RunOutcome.outOfResponses,
      { s3 with
        presentations := s3.presentations ++
          [presOf title iA s3.currentStep.stepNumber s3.currentStep.totalNumber
            s3.dialogValues s3.takenSteps.length] }⟩ :=
    run_outOfResponses (show (0 : Nat) < 3 by norm_num)
      (handleInputStep_noResponse title rfl (hA _) rfl)
  rw [e1, e2, e3, e4]
  simp only [hs3, hs1, skipStep, answerStep, initState, presOf, presObs]
  simp [generateStepOutput]
  exact ⟨rfl, rfl, rfl⟩

/-- Witness for C4 at a concrete `[A, B(skip), C]` wizard. -/
theorem C4_back_across_skip_witness :
    ((∀ dv, evalPre { name := "a" } dv = true) ∧
     (∀ dv, evalPre { name := "b", onBeforeInput := some (fun _ => false) } dv = false) ∧
     ("b" : String) ≠ "a" ∧ ("c" : String) ≠ "a") ∧
    (run "T" [{ name := "a" },
        { name := "b", onBeforeInput := some (fun _ => false) }, { name := "c" }] 4
      (initState [{ name := "a" },
          { name := "b", onBeforeInput := some (fun _ => false) }, { name := "c" }] {}
        [some (Val.str "x"), some InputAction.BACK])).final.presentations.map presObs =
      [(InputDef.name { name := "a" }, 1, 3, generateStepOutput "T" 1 3, false),
       (InputDef.name { name := "c" }, 2, 2, generateStepOutput "T" 2 2, true),
       (InputDef.name { name := "a" }, 1, 3, generateStepOutput "T" 1 3, false)] :=
  ⟨⟨fun _ => rfl, fun _ => rfl, by decide, by decide⟩,
    C4_back_across_skip "T" { name := "a" }
      { name := "b", onBeforeInput := some (fun _ => false) } { name := "c" }
      (Val.str "x") {} (fun _ => rfl) (fun _ => rfl) (fun _ => rfl)
      (by decide) (by decide) (by decide) (by decide)⟩

/-- Counterexample to C4 as stated (without the non-empty-name
proviso): with `A` named `""`, `B` always skipped and `C` resolving to
`NavigateBack`, the engine does not move back to `A` — the popped Step
Record's empty name is falsy in `handleGoingBack`, so the cursor stays
at `C`, which is re-presented with `(2, 2)` instead of `A` with the
recorded `(1, 3)` (observation log `"" (Step 1 of 3)`,
`c (Step 2 of 2)`, `c (Step 2 of 2)`). -/
theorem C4_back_across_skip_counterexample :
    ¬ ((run "T" [{ name := "" },
        { name := "b", onBeforeInput := some (fun _ => false) }, { name := "c" }] 4
      (initState [{ name := "" },
          { name := "b", onBeforeInput := some (fun _ => false) }, { name := "c" }] {}
        [some (Val.str "x"), some InputAction.BACK])).final.presentations.map presObs =
      [(InputDef.name { name := "" }, 1, 3, generateStepOutput "T" 1 3, false),
       (InputDef.name { name := "c" }, 2, 2, generateStepOutput "T" 2 2, true),
       (InputDef.name { name := "" }, 1, 3, generateStepOutput "T" 1 3, false)]) := by
  decide

/-! ## Claim C6: the confirmation dialog never stores `false` -/

theorem lt_length_of_getElem?_some {α : Type} {l : List α} {i : Nat} {x : α}
    (h : l[i]? = some x) : i < l.length := by
  by_contra hc
  rw [List.getElem?_eq_none (Nat.le_of_not_lt hc)] at h
  exact Option.noConfusion h

/-- C6: `ConfirmationDialog.showDialog` resolves to `true` exactly when
the designated confirm button was chosen and to `undefined` in every
other case — never to `false`; the engine treats an `undefined` result
as cancellation of the entire wizard (`handleMultiStepInput` returns
nothing), so a confirmation step can never contribute a stored `false`
answer. -/
theorem C6_confirmation_policy :
    (∀ (btn : String) (ans : Option MessageItem),
      ConfirmationDialog.showDialog btn ans = some true ∨
      ConfirmationDialog.showDialog btn ans = none) ∧
    (∀ (btn : String) (ans : Option MessageItem),
      ConfirmationDialog.showDialog btn ans = some true ↔
      ∃ m, ans = some m ∧ m.title = btn) ∧
    (∀ (btn : String) (ans : Option MessageItem),
      confirmationResponse btn ans ≠ some (Val.bool false)) ∧
    (∀ (title : String) (inputs : List InputDef) (s : EngineState)
      (rest : List (Option Val)) (inp : InputDef) (f : Nat),
      inputs[s.idx]? = some inp →
      evalPre inp s.dialogValues = true →
      s.responses = none :: rest →
      (run title inputs (f + 1) s).outcome = RunOutcome.cancelled) ∧
    (∀ (title : String) (inputs : List InputDef) (dv : Option DialogValues)
      (responses : List (Option Val)) (fuel : Nat),
      (run title inputs fuel (initState inputs (dv.getD {}) responses)).outcome =
        RunOutcome.cancelled →
      handleMultiStepInput title inputs dv responses fuel = none) := by
  refine ⟨?_, ?_, ?_, ?_, ?_⟩
  · intro btn ans
    cases ans with
    | none => exact Or.inr rfl
    | some m =>
      by_cases h : m.title = btn
      · exact Or.inl (by simp [ConfirmationDialog.showDialog, h])
      · exact Or.inr (by simp [ConfirmationDialog.showDialog, h])
  · intro btn ans
    constructor
    · intro h
      cases ans with
      | none => exact Option.noConfusion h
      | some m =>
        by_cases hm : m.title = btn
        · exact ⟨m, rfl, hm⟩
        · simp [ConfirmationDialog.showDialog, hm] at h
    · rintro ⟨m, rfl, hm⟩
      simp [ConfirmationDialog.showDialog, hm]
  · intro btn ans h
    cases ans with
    | none => exact Option.noConfusion h
    | some m =>
      by_cases hm : m.title = btn
      · simp [confirmationResponse, ConfirmationDialog.showDialog, hm] at h
      · simp [confirmationResponse, ConfirmationDialog.showDialog, hm] at h
  · intro title inputs s rest inp f hget hpre hresp
    have hidx : s.idx < inputs.length := lt_length_of_getElem?_some hget
    rw [run_cancelled hidx (handleInputStep_cancel title hget hpre hresp)]
  · intro title inputs dv responses fuel h
    simp [handleMultiStepInput, h]

/-- Witness for C6: a dismissed confirmation cancels a concrete run. -/
theorem C6_confirmation_policy_witness :
    (([{ name := "a" }] : List InputDef)[(initState [{ name := "a" }]
        {} [none]).idx]? = some { name := "a" } ∧
     evalPre { name := "a" } (initState [{ name := "a" }] {} [none]).dialogValues = true ∧
     (initState [{ name := "a" }] {} [none]).responses = none :: []) ∧
    (run "T" [{ name := "a" }] (0 + 1)
      (initState [{ name := "a" }] {} [none])).outcome = RunOutcome.cancelled :=
  ⟨⟨rfl, rfl, rfl⟩,
    C6_confirmation_policy.2.2.2.1 "T" [{ name := "a" }]
      (initState [{ name := "a" }] {} [none]) [] { name := "a" } 0 rfl rfl rfl⟩

/-! ## Claim C8: `addValue` normalisation -/

/-- C8: `DialogValues.addValue` stores a boolean answer as the
one-element sequence of its string form (`["true"]` / `["false"]`),
a string as a one-element sequence, and a string sequence as itself. -/
theorem C8_addValue_normalisation :
    ∀ (dv : DialogValues) (n : String) (b : Bool) (s : String) (l : List String),
      (dv.addValue n (Val.bool b)).get n = some [if b then "true" else "false"] ∧
      (dv.addValue n (Val.str s)).get n = some [s] ∧
      (dv.addValue n (Val.strs l)).get n = some l := by
  intro dv n b s l
  refine ⟨?_, ?_, ?_⟩ <;>
    exact getVals_mapSet_self _ _ _

/-! ## Claim C9: the open dialog's default location -/

theorem commonSegsFrom_prefix (sps : List (List String)) :
    ∀ (rest : List String) (i : Nat) (p : List String), p ∈ sps →
    commonSegsFrom sps rest i <+: p.drop i
  | [], i, p, _ => by
    rw [commonSegsFrom]
    exact List.nil_prefix
  | seg :: rest, i, p, hp => by
    rw [commonSegsFrom]
    by_cases hall : sps.all (fun q => q[i]? == some seg) = true
    · rw [if_pos hall]
      have hpi : p[i]? = some seg := by
        have := List.all_eq_true.mp hall p hp
        simpa using this
      have hlt : i < p.length := lt_length_of_getElem?_some hpi
      have hdrop : p.drop i = seg :: p.drop (i + 1) := by
        rw [List.drop_eq_getElem_cons hlt]
        have : p[i] = seg := by
          rw [List.getElem?_eq_getElem hlt] at hpi
          exact Option.some.inj hpi
        rw [this]
      rw [hdrop]
      exact List.cons_prefix_cons.mpr ⟨rfl, commonSegsFrom_prefix sps rest (i + 1) p hp⟩
    · rw [if_neg hall]
      exact List.nil_prefix

theorem commonSegsFrom_longest (sps : List (List String)) (first : List String)
    (hf : first ∈ sps) :
    ∀ (D : List String) (i : Nat),
    (∀ p ∈ sps, D <+: p.drop i) →
    D.length ≤ (commonSegsFrom sps (first.drop i) i).length
  | [], _, _ => Nat.zero_le _
  | d :: D, i, hD => by
    have hhead : ∀ p ∈ sps, p[i]? = some d ∧ D <+: p.drop (i + 1) := by
      intro p hp
      have hpre := hD p hp
      obtain ⟨t, ht⟩ := hpre
      have hlen : i < p.length := by
        have : (p.drop i).length = D.length + 1 + t.length := by
          rw [← ht]
          simp
          omega
        rw [List.length_drop] at this
        omega
      have hdrop : p.drop i = p[i] :: p.drop (i + 1) := List.drop_eq_getElem_cons hlen
      rw [hdrop] at ht
      obtain ⟨hd, htail⟩ := List.cons_eq_cons.mp ht
      constructor
      · rw [List.getElem?_eq_getElem hlen, ← hd]
      · exact ⟨t, htail⟩
    have hall : sps.all (fun q => q[i]? == some d) = true := by
      rw [List.all_eq_true]
      intro p hp
      simpa using (hhead p hp).1
    have hflen : i < first.length :=
      lt_length_of_getElem?_some (hhead first hf).1
    have hfdrop : first.drop i = d :: first.drop (i + 1) := by
      rw [List.drop_eq_getElem_cons hflen]
      have : first[i] = d := by
        have := (hhead first hf).1
        rw [List.getElem?_eq_getElem hflen] at this
        exact Option.some.inj this
      rw [this]
    rw [hfdrop, commonSegsFrom, if_pos hall]
    have ih := commonSegsFrom_longest sps first hf D (i + 1)
      (fun p hp => (hhead p hp).2)
    simpa using Nat.succ_le_succ ih

/-- C9: for an `OpenDialog` step named `name`: with exactly one stored
previous path the default location is that path; with two or more it is
the join of the deepest common segment prefix of the
normalized, separator-split paths; with none the caller-configured
`defaultUri` is used unchanged. -/
theorem C9_openDialog_defaultUri (normalize : String → String) (sep : String)
    (join : List String → String) (name : String) (dv : DialogValues)
    (defUri : Option Uri) :
    (∀ v, dv.get name = some [v] →
      findOutDefaultUri normalize sep join name dv defUri = some (some (Uri.file v))) ∧
    (dv.get name = none →
      findOutDefaultUri normalize sep join name dv defUri = some defUri) ∧
    (∀ v0 v1 vrest, dv.get name = some (v0 :: v1 :: vrest) →
      ∃ C, findOutDefaultUri normalize sep join name dv defUri =
          some (some (Uri.file (join C))) ∧
        (∀ p ∈ (v0 :: v1 :: vrest).map (fun v => (normalize v).splitOn sep), C <+: p) ∧
        (∀ D, (∀ p ∈ (v0 :: v1 :: vrest).map (fun v => (normalize v).splitOn sep),
          D <+: p) → D.length ≤ C.length)) := by
  refine ⟨?_, ?_, ?_⟩
  · intro v h
    have h' : getVals dv.inputValues name = some [v] := h
    simp [findOutDefaultUri, h']
  · intro h
    have h' : getVals dv.inputValues name = none := h
    simp [findOutDefaultUri, h']
  · intro v0 v1 vrest h
    have h' : getVals dv.inputValues name = some (v0 :: v1 :: vrest) := h
    refine ⟨commonSegsFrom
      (((v0 :: v1 :: vrest).map normalize).map (fun p => p.splitOn sep))
      ((normalize v0).splitOn sep) 0, ?_, ?_, ?_⟩
    · simp [findOutDefaultUri, h']
    · intro p hp
      have hp' : p ∈ ((v0 :: v1 :: vrest).map normalize).map
          (fun p => p.splitOn sep) := by
        rw [List.map_map]
        exact hp
      have := commonSegsFrom_prefix
        (((v0 :: v1 :: vrest).map normalize).map (fun p => p.splitOn sep))
        ((normalize v0).splitOn sep) 0 p hp'
      simpa using this
    · intro D hD
      have hf : (normalize v0).splitOn sep ∈
          ((v0 :: v1 :: vrest).map normalize).map (fun p => p.splitOn sep) := by
        rw [List.map_map]
        exact List.mem_map.mpr ⟨v0, List.mem_cons_self _ _, rfl⟩
      have := commonSegsFrom_longest
        (((v0 :: v1 :: vrest).map normalize).map (fun p => p.splitOn sep))
        ((normalize v0).splitOn sep) hf D 0 ?_
      · simpa using this
      · intro p hp
        rw [List.map_map] at hp
        simpa using hD p hp

/-- Witness for C9 (two stored paths, so the common-prefix branch is
exercised) at a concrete accumulator. -/
theorem C9_openDialog_defaultUri_witness :
    (DialogValues.get
        { inputValues := [("pick", ["r/s/a", "r/s/b"])] } "pick" =
      some ["r/s/a", "r/s/b"]) ∧
    (∃ C, findOutDefaultUri id "/" (String.intercalate "/") "pick"
        { inputValues := [("pick", ["r/s/a", "r/s/b"])] } none =
        some (some (Uri.file (String.intercalate "/" C))) ∧
      (∀ p ∈ (["r/s/a", "r/s/b"].map (fun v => (id v).splitOn "/")), C <+: p) ∧
      (∀ D, (∀ p ∈ (["r/s/a", "r/s/b"].map (fun v => (id v).splitOn "/")),
        D <+: p) → D.length ≤ C.length)) := by
  refine ⟨by decide, ?_⟩
  have h := (C9_openDialog_defaultUri id "/" (String.intercalate "/") "pick"
    { inputValues := [("pick", ["r/s/a", "r/s/b"])] } none).2.2
    "r/s/a" "r/s/b" [] (by decide)
  exact h

/-! ## Engine invariants -/

/-- The state carried by any result of `handleInputStep`. -/
def iterState : IterResult → EngineState
  | .cont s => s
  | .cancelled s => s
  | .crashed s => s
  | .outOfResponses s => s

/-- The `takenSteps` stack stores consecutive step numbers: the `i`-th
record from the bottom was recorded with step number `i`. -/
def StackNums : List Step → Prop
  | [] => True
  | r :: rest => r.stepNumber = (rest.length : Int) + 1 ∧ StackNums rest

/-- Every record on the stack carries a non-empty name. -/
def NamesOk (stk : List Step) : Prop :=
  ∀ r ∈ stk, ∃ nm, r.name = some nm ∧ nm ≠ ""

/-- The property claimed of each presentation: the stack was non-empty
iff the displayed step number was not 1, and the back button tracked
stack non-emptiness. -/
def PresOk (p : Presentation) : Prop :=
  (p.stackSize = 0 ↔ p.stepNumber = 1) ∧ p.showBackButton = decide (p.stackSize ≠ 0)

/-- Inductive invariant for C5 (valid when all step names are
non-empty): the current step number always exceeds the stack size by
one, the stack numbers are consecutive, names on the stack are
non-empty, and every recorded presentation satisfied `PresOk`. -/
def InvC5 (s : EngineState) : Prop :=
  s.currentStep.stepNumber = (s.takenSteps.length : Int) + 1 ∧
  StackNums s.takenSteps ∧ NamesOk s.takenSteps ∧ ∀ p ∈ s.presentations, PresOk p

theorem presOk_of_inv {s : EngineState}
    (hsn : s.currentStep.stepNumber = (s.takenSteps.length : Int) + 1)
    (title : String) (inp : InputDef) :
    PresOk (presOf title inp s.currentStep.stepNumber s.currentStep.totalNumber
      s.dialogValues s.takenSteps.length) := by
  constructor
  · show s.takenSteps.length = 0 ↔ s.currentStep.stepNumber = 1
    rw [hsn]
    omega
  · show decide (s.currentStep.stepNumber ≠ 1) = decide (s.takenSteps.length ≠ 0)
    rw [decide_eq_decide, hsn]
    omega

theorem invC5_goingBack {inputs : List InputDef} {stk : List Step} {cur : Step}
    {idx : Nat} (hsn : cur.stepNumber = (stk.length : Int) + 1)
    (hnums : StackNums stk) (hnames : NamesOk stk) :
    ∀ cur' stk' oidx', handleGoingBack inputs stk cur idx = (cur', stk', oidx') →
    cur'.stepNumber = (stk'.length : Int) + 1 ∧ StackNums stk' ∧ NamesOk stk' := by
  intro cur' stk' oidx' heq
  cases stk with
  | nil =>
    simp only [handleGoingBack, Prod.mk.injEq] at heq
    obtain ⟨h1, h2, _⟩ := heq
    subst h1
    subst h2
    exact ⟨by simpa using hsn, trivial, fun r hr => absurd hr (List.not_mem_nil r)⟩
  | cons r rest =>
    obtain ⟨nm, hnm, hne⟩ := hnames r (List.mem_cons_self _ _)
    obtain ⟨hr, hrest⟩ := hnums
    simp only [handleGoingBack, hnm] at heq
    rw [if_neg hne] at heq
    simp only [Prod.mk.injEq] at heq
    obtain ⟨h1, h2, _⟩ := heq
    subst h1
    subst h2
    refine ⟨?_, hrest, fun q hq => hnames q (List.mem_cons_of_mem _ hq)⟩
    show r.stepNumber = (rest.length : Int) + 1
    exact hr

theorem invC5_step (title : String) (inputs : List InputDef)
    (hname : ∀ inp ∈ inputs, inp.name ≠ "")
    (s : EngineState) (h : InvC5 s) :
    InvC5 (iterState (handleInputStep title inputs s)) := by
  obtain ⟨hsn, hnums, hnames, hpres⟩ := h
  by_cases hin : s.idx < inputs.length
  · have hget : inputs[s.idx]? = some (inputs.getD s.idx default) :=
      getElem?_eq_some_getD inputs s.idx hin
    have hmem : inputs.getD s.idx default ∈ inputs := getD_mem inputs s.idx hin
    by_cases hpre : evalPre (inputs.getD s.idx default) s.dialogValues = true
    · cases hresp : s.responses with
      | nil =>
        rw [handleInputStep_noResponse title hget hpre hresp]
        refine ⟨hsn, hnums, hnames, fun p hp => ?_⟩
        rcases List.mem_append.mp hp with hp | hp
        · exact hpres p hp
        · rw [List.mem_singleton.mp hp]
          exact presOk_of_inv hsn title _
      | cons r rest =>
        cases r with
        | none =>
          rw [handleInputStep_cancel title hget hpre hresp]
          refine ⟨hsn, hnums, hnames, fun p hp => ?_⟩
          rcases List.mem_append.mp hp with hp | hp
          · exact hpres p hp
          · rw [List.mem_singleton.mp hp]
            exact presOk_of_inv hsn title _
        | some v =>
          by_cases hv : v = InputAction.BACK
          · subst hv
            rcases hgb : handleGoingBack inputs s.takenSteps s.currentStep s.idx with
              ⟨cur', stk', oidx'⟩
            obtain ⟨hsn', hnums', hnames'⟩ :=
              invC5_goingBack hsn hnums hnames cur' stk' oidx' hgb
            cases oidx' with
            | none =>
              have : handleInputStep title inputs s = .crashed
                  { s with
                    presentations := s.presentations ++
                      [presOf title (inputs.getD s.idx default) s.currentStep.stepNumber
                        s.currentStep.totalNumber s.dialogValues s.takenSteps.length]
                    responses := rest } := by
                unfold handleInputStep
                rw [hget]
                simp only [hpre, hresp, if_true, if_pos rfl]
                rw [show ({ s with
                    presentations := s.presentations ++
                      [presOf title (inputs.getD s.idx default) s.currentStep.stepNumber
                        s.currentStep.totalNumber s.dialogValues s.takenSteps.length]
                    responses := rest } : EngineState).takenSteps = s.takenSteps from rfl,
                  show ({ s with
                    presentations := s.presentations ++
                      [presOf title (inputs.getD s.idx default) s.currentStep.stepNumber
                        s.currentStep.totalNumber s.dialogValues s.takenSteps.length]
                    responses := rest } : EngineState).currentStep = s.currentStep from rfl,
                  show ({ s with
                    presentations := s.presentations ++
                      [presOf title (inputs.getD s.idx default) s.currentStep.stepNumber
                        s.currentStep.totalNumber s.dialogValues s.takenSteps.length]
                    responses := rest } : EngineState).idx = s.idx from rfl]
                rw [hgb]
              rw [this]
              refine ⟨hsn, hnums, hnames, fun p hp => ?_⟩
              rcases List.mem_append.mp hp with hp | hp
              · exact hpres p hp
              · rw [List.mem_singleton.mp hp]
                exact presOk_of_inv hsn title _
            | some j =>
              rw [handleInputStep_back title hget hpre hresp hgb]
              refine ⟨hsn', hnums', hnames', fun p hp => ?_⟩
              rcases List.mem_append.mp hp with hp | hp
              · exact hpres p hp
              · rw [List.mem_singleton.mp hp]
                exact presOk_of_inv hsn title _
          · rw [handleInputStep_answer title hget hpre hresp hv]
            refine ⟨?_, ?_, ?_, fun p hp => ?_⟩
            · simp only [iterState, answerStep, List.length_cons]
              push_cast
              omega
            · exact ⟨hsn, hnums⟩
            · intro q hq
              rcases List.mem_cons.mp hq with hq | hq
              · exact ⟨(inputs.getD s.idx default).name, by rw [hq], hname _ hmem⟩
              · exact hnames q hq
            · rcases List.mem_append.mp hp with hp | hp
              · exact hpres p hp
              · rw [List.mem_singleton.mp hp]
                exact presOk_of_inv hsn title _
    · have hpre' : evalPre (inputs.getD s.idx default) s.dialogValues = false :=
        Bool.eq_false_iff.mpr hpre
      by_cases hgbp : s.currentStep.goingBackProcess = true
      · rcases hgb : handleGoingBack inputs s.takenSteps s.currentStep s.idx with
          ⟨cur', stk', oidx'⟩
        obtain ⟨hsn', hnums', hnames'⟩ :=
          invC5_goingBack hsn hnums hnames cur' stk' oidx' hgb
        cases oidx' with
        | none =>
          have : handleInputStep title inputs s = .crashed s := by
            unfold handleInputStep
            rw [hget]
            simp only [hpre', hgbp, if_false, if_true, Bool.false_eq_true]
            rw [hgb]
          rw [this]
          exact ⟨hsn, hnums, hnames, hpres⟩
        | some j =>
          rw [handleInputStep_skipBack title hget hpre' hgbp hgb]
          exact ⟨hsn', hnums', hnames', hpres⟩
      · have hgbp' : s.currentStep.goingBackProcess = false :=
          Bool.eq_false_iff.mpr hgbp
        rw [handleInputStep_skip title hget hpre' hgbp']
        exact ⟨by simpa [skipStep] using hsn, hnums, hnames, hpres⟩
  · have : inputs[s.idx]? = none := List.getElem?_eq_none (Nat.le_of_not_lt hin)
    have hc : handleInputStep title inputs s = .crashed s := by
      unfold handleInputStep
      rw [this]
    rw [hc]
    exact ⟨hsn, hnums, hnames, hpres⟩

theorem invC5_run (title : String) (inputs : List InputDef)
    (hname : ∀ inp ∈ inputs, inp.name ≠ "") :
    ∀ (fuel : Nat) (s : EngineState), InvC5 s →
    ∀ p ∈ (run title inputs fuel s).final.presentations, PresOk p
  | 0, s, h => fun p hp => h.2.2.2 p hp
  | fuel + 1, s, h => by
    rw [run_succ]
    by_cases hidx : s.idx < inputs.length
    · rw [if_pos hidx]
      have hstep := invC5_step title inputs hname s h
      cases hres : handleInputStep title inputs s with
      | cont s1 =>
        rw [hres] at hstep
        exact invC5_run title inputs hname fuel s1 hstep
      | cancelled s1 =>
        rw [hres] at hstep
        exact fun p hp => hstep.2.2.2 p hp
      | crashed s1 =>
        rw [hres] at hstep
        exact fun p hp => hstep.2.2.2 p hp
      | outOfResponses s1 =>
        rw [hres] at hstep
        exact fun p hp => hstep.2.2.2 p hp
    · rw [if_neg hidx]
      exact fun p hp => h.2.2.2 p hp

/-! ## Claim C5: back-control visibility versus the record stack -/

/-- Counterexample to C5 as stated: with a first step whose name is the
empty string (falsy in the source's `if (goToStep?.name)` check), a
record can be popped without moving the cursor back, producing a
presentation whose step number is 2 while the `takenSteps` stack is
empty — so \"stack non-empty iff stepNumber ≠ 1\" fails, and the shown
back button has no record to go back to. -/
theorem C5_back_visibility_counterexample :
    ¬ (∀ p ∈ (run "T" [{ name := "" }, { name := "b" }] 5
        (initState [{ name := "" }, { name := "b" }] {}
          [some (Val.str "x"), some (Val.str "BACK"),
           some (Val.str "y")])).final.presentations,
        (p.stackSize ≠ 0 ↔ p.stepNumber ≠ 1)) := by
  decide

/-- C5 (amended): provided every step name is a non-empty string, in
every reachable engine state at the moment a step is presented the
`takenSteps` stack is non-empty iff the displayed step number is not 1,
and the `showBackButton` flag equals stack non-emptiness. -/
theorem C5_back_visibility_amended (title : String) (inputs : List InputDef)
    (dv0 : DialogValues) (responses : List (Option Val)) (fuel : Nat)
    (hname : ∀ inp ∈ inputs, inp.name ≠ "") :
    ∀ p ∈ (run title inputs fuel
      (initState inputs dv0 responses)).final.presentations,
      (p.stackSize = 0 ↔ p.stepNumber = 1) ∧
      p.showBackButton = decide (p.stackSize ≠ 0) := by
  intro p hp
  refine invC5_run title inputs hname fuel (initState inputs dv0 responses)
    ⟨?_, trivial, ?_, ?_⟩ p hp
  · show (1 : Int) = ((0 : Nat) : Int) + 1
    norm_num
  · exact fun r hr => absurd hr (List.not_mem_nil r)
  · exact fun q hq => absurd hq (List.not_mem_nil q)

/-- Witness for C5 (amended) on a concrete run with a back-navigation. -/
theorem C5_back_visibility_amended_witness :
    (∀ inp ∈ ([{ name := "a" }, { name := "b" }] : List InputDef), inp.name ≠ "") ∧
    ∀ p ∈ (run "T" [{ name := "a" }, { name := "b" }] 5
      (initState [{ name := "a" }, { name := "b" }] {}
        [some (Val.str "x"), some (Val.str "BACK"),
         some (Val.str "y")])).final.presentations,
      (p.stackSize = 0 ↔ p.stepNumber = 1) ∧
      p.showBackButton = decide (p.stackSize ≠ 0) := by
  have hname : ∀ inp ∈ ([{ name := "a" }, { name := "b" }] : List InputDef),
      inp.name ≠ "" := by decide
  exact ⟨hname, C5_back_visibility_amended "T" [{ name := "a" }, { name := "b" }] {}
    [some (Val.str "x"), some (Val.str "BACK"), some (Val.str "y")] 5 hname⟩

/-! ## Claim C10: totality and safety of `handleGoingBack` -/

theorem getD_eq_getElem {α : Type} [Inhabited α] (l : List α) (i : Nat)
    (h : i < l.length) : l.getD i default = l[i] := by
  rw [List.getD_eq_getElem?_getD, List.getElem?_eq_getElem h]
  rfl

/-- With pairwise-distinct step names, the backward walk from any
position at or after a step reaches exactly that step. -/
theorem walkBack_nodup (inputs : List InputDef)
    (hnd : (inputs.map InputDef.name).Nodup) (nm : String) :
    ∀ (i p : Nat), p ≤ i → i < inputs.length → p < inputs.length →
    (inputs.getD p default).name = nm → walkBack inputs nm i = some p := by
  intro i
  induction i with
  | zero =>
    intro p hpi _ hp hnm
    have hp0 : p = 0 := by omega
    subst hp0
    exact walkBack_here (getElem?_eq_some_getD inputs 0 hp) hnm
  | succ m ih =>
    intro p hpi hi hp hnm
    by_cases hpm : p = m + 1
    · subst hpm
      exact walkBack_here (getElem?_eq_some_getD inputs (m + 1) hi) hnm
    · have hple : p ≤ m := by omega
      have hne : (inputs.getD (m + 1) default).name ≠ nm := by
        intro hc
        have hmap : m + 1 < (inputs.map InputDef.name).length := by
          rw [List.length_map]
          exact hi
        have hmap' : p < (inputs.map InputDef.name).length := by
          rw [List.length_map]
          exact hp
        have he : (inputs.map InputDef.name).get ⟨m + 1, hmap⟩ =
            (inputs.map InputDef.name).get ⟨p, hmap'⟩ := by
          show (inputs.map InputDef.name)[m + 1] = (inputs.map InputDef.name)[p]
          rw [List.getElem_map, List.getElem_map]
          show inputs[m + 1].name = inputs[p].name
          rw [← getD_eq_getElem inputs (m + 1) hi, ← getD_eq_getElem inputs p hp]
          rw [hc, hnm]
        have := List.Nodup.get_inj_iff hnd |>.mp he
        simp at this
        omega
      rw [walkBack_succ_ne (getElem?_eq_some_getD inputs (m + 1) hi) hne]
      exact ih p hple (by omega) hp hnm

/-- Inductive invariant for C10: every record on the `takenSteps` stack
names a step located strictly before the position bound (initially the
cursor), and the records' positions are strictly decreasing down the
stack. -/
def RecordsOk (inputs : List InputDef) : List Step → Nat → Prop
  | [], _ => True
  | r :: rest, bound => ∃ p, p < bound ∧ p < inputs.length ∧
      r.name = some (inputs.getD p default).name ∧ RecordsOk inputs rest p

theorem recordsOk_mono (inputs : List InputDef) :
    ∀ (stk : List Step) (b b' : Nat), b ≤ b' →
    RecordsOk inputs stk b → RecordsOk inputs stk b'
  | [], _, _, _, _ => trivial
  | _ :: _, _, _, hb, ⟨p, hp, hpl, hn, hrest⟩ =>
    ⟨p, Nat.lt_of_lt_of_le hp hb, hpl, hn, hrest⟩

theorem invC10_goingBack (inputs : List InputDef)
    (hnd : (inputs.map InputDef.name).Nodup) {stk : List Step} {cur : Step}
    {idx : Nat} (hidx : idx < inputs.length)
    (h : RecordsOk inputs stk idx) :
    ∀ cur' stk' oidx', handleGoingBack inputs stk cur idx = (cur', stk', oidx') →
    ∃ j, oidx' = some j ∧ j ≤ idx ∧ RecordsOk inputs stk' j := by
  intro cur' stk' oidx' heq
  cases stk with
  | nil =>
    simp only [handleGoingBack, Prod.mk.injEq] at heq
    obtain ⟨_, h2, h3⟩ := heq
    subst h2
    exact ⟨idx, h3.symm, le_refl _, trivial⟩
  | cons r rest =>
    obtain ⟨p, hp, hpl, hn, hrest⟩ := h
    simp only [handleGoingBack, hn] at heq
    by_cases hne : (inputs.getD p default).name = ""
    · rw [if_pos hne] at heq
      simp only [Prod.mk.injEq] at heq
      obtain ⟨_, h2, h3⟩ := heq
      subst h2
      exact ⟨idx, h3.symm, le_refl _,
        recordsOk_mono inputs rest p idx (Nat.le_of_lt hp) hrest⟩
    · rw [if_neg hne] at heq
      have hwalk : walkBack inputs (inputs.getD p default).name idx = some p :=
        walkBack_nodup inputs hnd _ idx p (Nat.le_of_lt hp) hidx hpl rfl
      rw [hwalk] at heq
      simp only [Prod.mk.injEq] at heq
      obtain ⟨_, h2, h3⟩ := heq
      subst h2
      exact ⟨p, h3.symm, Nat.le_of_lt hp, hrest⟩

theorem invC10_step (title : String) (inputs : List InputDef)
    (hnd : (inputs.map InputDef.name).Nodup)
    (s : EngineState) (hidx : s.idx < inputs.length)
    (h : RecordsOk inputs s.takenSteps s.idx) :
    (∀ s1, handleInputStep title inputs s = .cont s1 →
      RecordsOk inputs s1.takenSteps s1.idx) ∧
    (∀ s1, handleInputStep title inputs s ≠ .crashed s1) := by
  have hget : inputs[s.idx]? = some (inputs.getD s.idx default) :=
    getElem?_eq_some_getD inputs s.idx hidx
  by_cases hpre : evalPre (inputs.getD s.idx default) s.dialogValues = true
  · cases hresp : s.responses with
    | nil =>
      rw [handleInputStep_noResponse title hget hpre hresp]
      exact ⟨fun s1 hc => IterResult.noConfusion hc,
        fun s1 hc => IterResult.noConfusion hc⟩
    | cons r rest =>
      cases r with
      | none =>
        rw [handleInputStep_cancel title hget hpre hresp]
        exact ⟨fun s1 hc => IterResult.noConfusion hc,
          fun s1 hc => IterResult.noConfusion hc⟩
      | some v =>
        by_cases hv : v = InputAction.BACK
        · subst hv
          rcases hgb : handleGoingBack inputs s.takenSteps s.currentStep s.idx with
            ⟨cur', stk', oidx'⟩
          obtain ⟨j, hoidx, hj, hrec⟩ :=
            invC10_goingBack inputs hnd hidx h cur' stk' oidx' hgb
          subst hoidx
          rw [handleInputStep_back title hget hpre hresp hgb]
          refine ⟨fun s1 hc => ?_, fun s1 hc => IterResult.noConfusion hc⟩
          cases hc
          exact hrec
        · rw [handleInputStep_answer title hget hpre hresp hv]
          refine ⟨fun s1 hc => ?_, fun s1 hc => IterResult.noConfusion hc⟩
          cases hc
          exact ⟨s.idx, Nat.lt_succ_self _, hidx, rfl, h⟩
  · have hpre' : evalPre (inputs.getD s.idx default) s.dialogValues = false :=
      Bool.eq_false_iff.mpr hpre
    by_cases hgbp : s.currentStep.goingBackProcess = true
    · rcases hgb : handleGoingBack inputs s.takenSteps s.currentStep s.idx with
        ⟨cur', stk', oidx'⟩
      obtain ⟨j, hoidx, hj, hrec⟩ :=
        invC10_goingBack inputs hnd hidx h cur' stk' oidx' hgb
      subst hoidx
      rw [handleInputStep_skipBack title hget hpre' hgbp hgb]
      refine ⟨fun s1 hc => ?_, fun s1 hc => IterResult.noConfusion hc⟩
      cases hc
      exact hrec
    · have hgbp' : s.currentStep.goingBackProcess = false :=
        Bool.eq_false_iff.mpr hgbp
      rw [handleInputStep_skip title hget hpre' hgbp']
      refine ⟨fun s1 hc => ?_, fun s1 hc => IterResult.noConfusion hc⟩
      cases hc
      exact recordsOk_mono inputs s.takenSteps s.idx (s.idx + 1)
        (Nat.le_succ _) h

theorem invC10_run (title : String) (inputs : List InputDef)
    (hnd : (inputs.map InputDef.name).Nodup) :
    ∀ (fuel : Nat) (s : EngineState), RecordsOk inputs s.takenSteps s.idx →
    (run title inputs fuel s).outcome ≠ RunOutcome.crashed
  | 0, s, _ => fun hc => RunOutcome.noConfusion hc
  | fuel + 1, s, h => by
    rw [run_succ]
    by_cases hidx : s.idx < inputs.length
    · rw [if_pos hidx]
      have hstep := invC10_step title inputs hnd s hidx h
      cases hres : handleInputStep title inputs s with
      | cont s1 =>
        exact invC10_run title inputs hnd fuel s1 (hstep.1 s1 hres)
      | cancelled s1 => exact fun hc => RunOutcome.noConfusion hc
      | crashed s1 => exact absurd hres (hstep.2 s1)
      | outOfResponses s1 => exact fun hc => RunOutcome.noConfusion hc
    · rw [if_neg hidx]
      exact fun hc => RunOutcome.noConfusion hc

/-- C10: with an empty `takenSteps` stack `handleGoingBack` returns the
current step and leaves the cursor in place, and under the precondition
that all step names are unique, no run of the engine ever crashes: the
backward name-matching walk always terminates at a valid in-bounds
position, because every pushed Step Record names a step located before
the cursor. -/
theorem C10_goingBack_safety (inputs : List InputDef) :
    (∀ (cur : Step) (idx : Nat),
      handleGoingBack inputs [] cur idx = (cur, [], some idx)) ∧
    ((inputs.map InputDef.name).Nodup →
      ∀ (title : String) (dv0 : DialogValues) (responses : List (Option Val))
        (fuel : Nat),
      (run title inputs fuel (initState inputs dv0 responses)).outcome ≠
        RunOutcome.crashed) := by
  refine ⟨fun cur idx => rfl, fun hnd title dv0 responses fuel => ?_⟩
  exact invC10_run title inputs hnd fuel (initState inputs dv0 responses) trivial

/-- Witness for C10 on a concrete wizard with a back-navigation past a
skipped step. -/
theorem C10_goingBack_safety_witness :
    (([{ name := "a" }, { name := "b", onBeforeInput := some (fun _ => false) },
       { name := "c" }] : List InputDef).map InputDef.name).Nodup ∧
    (run "T" [{ name := "a" }, { name := "b", onBeforeInput := some (fun _ => false) },
       { name := "c" }] 6
      (initState [{ name := "a" },
          { name := "b", onBeforeInput := some (fun _ => false) }, { name := "c" }] {}
        [some (Val.str "x"), some (Val.str "BACK"),
         some (Val.str "z")])).outcome ≠ RunOutcome.crashed := by
  have hnd : (([{ name := "a" },
      { name := "b", onBeforeInput := some (fun _ => false) },
      { name := "c" }] : List InputDef).map InputDef.name).Nodup := by
    simp [List.nodup_cons]
  exact ⟨hnd, (C10_goingBack_safety _).2 hnd "T" {}
    [some (Val.str "x"), some (Val.str "BACK"), some (Val.str "z")] 6⟩

end VSCInput
